import Mathlib

/-!
# Verification of `thrasher.c` (imx6q-thrasher)

A shallow embedding of the memory-bus stress generator `src/thrasher.c`.
The buffer of `struct entry` cells is modelled as a function from slot
indices (the C pointer `buf_ll + k` is represented by the index `k`) to
entry records.  Machine integers are modelled by `Nat`/`Int` with explicit
wrap-around where the C code can overflow.
-/

namespace Thrasher

/-- One `struct entry` of the C source: two links and a payload word.
Links are slot indices into the same buffer (the C code only ever stores
pointers of the form `buf_ll + k`). -/
@[ext]
structure Entry where
  prev : Nat
  next : Nat
  data : Int
  deriving DecidableEq

/-- The allocated buffer: slot index to entry.  Slots `≥ n` model the
bytes past the region actually used; the program never touches them. -/
abbrev Buf : Type := Nat → Entry

/-- Store an entry at a slot (`buf_ll[j] = e`, or a field update written
through a pointer). -/
def wr (b : Buf) (j : Nat) (e : Entry) : Buf :=
  fun k => if k = j then e else b k

@[simp] theorem wr_same (b : Buf) (j : Nat) (e : Entry) : wr b j e j = e := by
  simp [wr]

theorem wr_other (b : Buf) (j : Nat) (e : Entry) {k : Nat} (h : k ≠ j) :
    wr b j e k = b k := by
  simp [wr, h]

/-- Forward link (`.next`) as a function on slots. -/
def nf (b : Buf) : Nat → Nat := fun j => (b j).next

/-- Backward link (`.prev`) as a function on slots. -/
def pf (b : Buf) : Nat → Nat := fun j => (b j).prev

/-! ## The chain invariant

`good n b` says the forward links restricted to `[0, n)` form a single
cycle through all `n` entries and the backward links are their exact
inverse — the invariant claimed for the shuffled linked list. -/

/-- All links of live slots stay inside the region. -/
def linksBounded (n : Nat) (b : Buf) : Prop :=
  ∀ j < n, nf b j < n ∧ pf b j < n

/-- Round trip: `e.next.prev == e` and `e.prev.next == e` for every live entry. -/
def roundTrip (n : Nat) (b : Buf) : Prop :=
  (∀ j < n, pf b (nf b j) = j) ∧ (∀ j < n, nf b (pf b j) = j)

/-- The forward links form a single cycle: from any live slot, fewer than
`n` steps never return, and exactly `n` steps return. -/
def singleCycle (n : Nat) (f : Nat → Nat) : Prop :=
  (∀ s < n, f^[n] s = s) ∧ ∀ s < n, ∀ k < n, 0 < k → f^[k] s ≠ s

/-- The full invariant of the circular doubly-linked list. -/
def good (n : Nat) (b : Buf) : Prop :=
  linksBounded n b ∧ roundTrip n b ∧ singleCycle n (nf b)

instance (n : Nat) (b : Buf) : Decidable (linksBounded n b) := by
  unfold linksBounded
  infer_instance

instance (n : Nat) (b : Buf) : Decidable (roundTrip n b) := by
  unfold roundTrip
  infer_instance

instance (n : Nat) (f : Nat → Nat) : Decidable (singleCycle n f) := by
  unfold singleCycle
  infer_instance

instance (n : Nat) (b : Buf) : Decidable (good n b) := by
  unfold good
  infer_instance

theorem good_bounded {n : Nat} {b : Buf} (h : good n b) : linksBounded n b := h.1

theorem good_roundTrip {n : Nat} {b : Buf} (h : good n b) : roundTrip n b := h.2.1

theorem good_cycle {n : Nat} {b : Buf} (h : good n b) : singleCycle n (nf b) := h.2.2

/-- Live slots keep live iterates. -/
theorem iterate_lt {n : Nat} {b : Buf} (hb : linksBounded n b) :
    ∀ k, ∀ s < n, (nf b)^[k] s < n := by
  intro k
  induction k with
  | zero => intro s hs; simpa using hs
  | succ k ih =>
      intro s hs
      rw [Function.iterate_succ_apply]
      exact ih _ ((hb s hs).1)

/-- In a good chain no live entry links forward to itself. -/
theorem no_self_loop {n : Nat} {b : Buf} (h : good n b) (hn : 2 ≤ n) :
    ∀ j < n, nf b j ≠ j := by
  intro j hj
  have := (good_cycle h).2 j hj 1 (by omega) (by omega)
  simpa using this

/-- In a good chain no live entry links backward to itself. -/
theorem no_self_loop_prev {n : Nat} {b : Buf} (h : good n b) (hn : 2 ≤ n) :
    ∀ j < n, pf b j ≠ j := by
  intro j hj hpj
  have h2 : nf b (pf b j) = j := (good_roundTrip h).2 j hj
  rw [hpj] at h2
  exact no_self_loop h hn j hj h2

/-- The map `nf` is injective on live slots (its inverse is `pf`). -/
theorem nf_inj {n : Nat} {b : Buf} (h : good n b) {x y : Nat}
    (hx : x < n) (hy : y < n) (hxy : nf b x = nf b y) : x = y := by
  have h1 := (good_roundTrip h).1 x hx
  have h2 := (good_roundTrip h).1 y hy
  rw [hxy] at h1
  rw [h1] at h2
  exact h2

/-- The map `pf` is injective on live slots. -/
theorem pf_inj {n : Nat} {b : Buf} (h : good n b) {x y : Nat}
    (hx : x < n) (hy : y < n) (hxy : pf b x = pf b y) : x = y := by
  have h1 := (good_roundTrip h).2 x hx
  have h2 := (good_roundTrip h).2 y hy
  rw [hxy] at h1
  rw [h1] at h2
  exact h2

/-! ## Transpositions and relabelled buffers

Logically, one shuffle step swaps the entries sitting in slots `i` and
`choice` inside the chain; on the successor function this is conjugation
by the transposition `(i choice)`.  We prove below that the C pointer
surgery realises exactly this relabelling. -/

/-- The transposition of slots `i` and `c`. -/
def tau (i c x : Nat) : Nat := if x = i then c else if x = c then i else x

@[simp] theorem tau_left (i c : Nat) : tau i c i = c := by
  simp [tau]

theorem tau_right (i c : Nat) : tau i c c = i := by
  by_cases h : c = i <;> simp [tau, h]

theorem tau_other {i c x : Nat} (h1 : x ≠ i) (h2 : x ≠ c) : tau i c x = x := by
  simp [tau, h1, h2]

theorem tau_same (i x : Nat) : tau i i x = x := by
  by_cases h : x = i <;> simp [tau, h]

theorem tau_invol (i c x : Nat) : tau i c (tau i c x) = x := by
  by_cases hci : c = i
  · subst hci
    by_cases hx : x = c <;> simp [tau, hx]
  · by_cases hxi : x = i
    · subst hxi; simp [tau, hci]
    · by_cases hxc : x = c
      · subst hxc; simp [tau, hci]
      · simp [tau, hxi, hxc]

theorem tau_lt {n i c x : Nat} (hi : i < n) (hc : c < n) (hx : x < n) :
    tau i c x < n := by
  unfold tau
  split
  · exact hc
  · split
    · exact hi
    · exact hx

theorem tau_inj {i c x y : Nat} (h : tau i c x = tau i c y) : x = y := by
  have := congrArg (tau i c) h
  rwa [tau_invol, tau_invol] at this

/-- The buffer relabelled by the transposition `(i c)`: slot `j` holds the
entry that sat in slot `tau i c j`, with both of its links renamed. -/
def conj (b : Buf) (i c : Nat) : Buf :=
  fun j =>
    { prev := tau i c (pf b (tau i c j))
      next := tau i c (nf b (tau i c j))
      data := (b (tau i c j)).data }

theorem nf_conj (b : Buf) (i c j : Nat) :
    nf (conj b i c) j = tau i c (nf b (tau i c j)) := rfl

theorem pf_conj (b : Buf) (i c j : Nat) :
    pf (conj b i c) j = tau i c (pf b (tau i c j)) := rfl

/-- Iterating a conjugated function. -/
theorem iterate_conj (f : Nat → Nat) (i c : Nat) (k x : Nat) :
    (fun j => tau i c (f (tau i c j)))^[k] x = tau i c (f^[k] (tau i c x)) := by
  induction k generalizing x with
  | zero => simp [tau_invol]
  | succ k ih =>
      rw [Function.iterate_succ_apply, Function.iterate_succ_apply, ih, tau_invol]

/-- Conjugation by a transposition of live slots preserves the full chain
invariant. -/
theorem good_conj {n : Nat} {b : Buf} (h : good n b) {i c : Nat}
    (hi : i < n) (hc : c < n) : good n (conj b i c) := by
  obtain ⟨hb, ⟨hrt1, hrt2⟩, ⟨hcy1, hcy2⟩⟩ := h
  refine ⟨?_, ⟨?_, ?_⟩, ?_, ?_⟩
  · intro j hj
    constructor
    · exact tau_lt hi hc ((hb _ (tau_lt hi hc hj)).1)
    · exact tau_lt hi hc ((hb _ (tau_lt hi hc hj)).2)
  · intro j hj
    rw [nf_conj, pf_conj, tau_invol, hrt1 _ (tau_lt hi hc hj), tau_invol]
  · intro j hj
    rw [pf_conj, nf_conj, tau_invol, hrt2 _ (tau_lt hi hc hj), tau_invol]
  · intro s hs
    have : nf (conj b i c) = fun j => tau i c (nf b (tau i c j)) := rfl
    rw [this, iterate_conj, hcy1 _ (tau_lt hi hc hs), tau_invol]
  · intro s hs k hk1 hk2 hcontra
    have : nf (conj b i c) = fun j => tau i c (nf b (tau i c j)) := rfl
    rw [this, iterate_conj] at hcontra
    have := congrArg (tau i c) hcontra
    rw [tau_invol] at this
    exact hcy2 _ (tau_lt hi hc hs) k hk1 hk2 this

/-- The invariant only depends on the live slots. -/
theorem nf_iterate_congr {n : Nat} {b1 b2 : Buf}
    (hag : ∀ j < n, b1 j = b2 j) (hb : linksBounded n b1) :
    ∀ k, ∀ s < n, (nf b1)^[k] s = (nf b2)^[k] s := by
  intro k
  induction k with
  | zero => intro s _; simp
  | succ k ih =>
      intro s hs
      rw [Function.iterate_succ_apply, Function.iterate_succ_apply]
      have h1 : nf b1 s = nf b2 s := by
        unfold nf; rw [hag s hs]
      rw [← h1]
      exact ih _ ((hb s hs).1)

/-- Two buffers agreeing on live slots are equally good. -/
theorem good_congr {n : Nat} {b1 b2 : Buf}
    (hag : ∀ j < n, b1 j = b2 j) (h : good n b1) : good n b2 := by
  obtain ⟨hb, ⟨hrt1, hrt2⟩, ⟨hcy1, hcy2⟩⟩ := h
  have hnf : ∀ j < n, nf b1 j = nf b2 j := by
    intro j hj; unfold nf; rw [hag j hj]
  have hpf : ∀ j < n, pf b1 j = pf b2 j := by
    intro j hj; unfold pf; rw [hag j hj]
  have hb2 : linksBounded n b2 := by
    intro j hj
    refine ⟨?_, ?_⟩
    · rw [← hnf j hj]; exact (hb j hj).1
    · rw [← hpf j hj]; exact (hb j hj).2
  refine ⟨hb2, ⟨?_, ?_⟩, ?_, ?_⟩
  · intro j hj
    rw [← hnf j hj, ← hpf _ ((hb j hj).1)]
    exact hrt1 j hj
  · intro j hj
    rw [← hpf j hj, ← hnf _ ((hb j hj).2)]
    exact hrt2 j hj
  · intro s hs
    rw [← nf_iterate_congr hag hb _ _ hs]
    exact hcy1 s hs
  · intro s hs k hk1 hk2
    rw [← nf_iterate_congr hag hb _ _ hs]
    exact hcy2 s hs k hk1 hk2

/-! ## Initial circular linking

`thrasher.c` lines 78-83:
```
buf_ll[0].prev = buf_ll + num_entries - 1;
buf_ll[num_entries - 1].next = buf_ll;
for (int i = 1; i < num_entries; i++) {
    buf_ll[i - 1].next = buf_ll + i;
    buf_ll[i].prev = buf_ll + i - 1;
}
```
-/

/-- Write `buf_ll[j].next = buf_ll + x`. -/
def setNextAt (b : Buf) (j x : Nat) : Buf := wr b j { b j with next := x }

/-- Write `buf_ll[j].prev = buf_ll + x`. -/
def setPrevAt (b : Buf) (j x : Nat) : Buf := wr b j { b j with prev := x }

theorem nf_setNextAt (b : Buf) (j x k : Nat) :
    nf (setNextAt b j x) k = if k = j then x else nf b k := by
  by_cases h : k = j <;> simp [nf, setNextAt, wr, h]

theorem pf_setNextAt (b : Buf) (j x k : Nat) :
    pf (setNextAt b j x) k = pf b k := by
  by_cases h : k = j <;> simp [pf, setNextAt, wr, h]

theorem nf_setPrevAt (b : Buf) (j x k : Nat) :
    nf (setPrevAt b j x) k = nf b k := by
  by_cases h : k = j <;> simp [nf, setPrevAt, wr, h]

theorem pf_setPrevAt (b : Buf) (j x k : Nat) :
    pf (setPrevAt b j x) k = if k = j then x else pf b k := by
  by_cases h : k = j <;> simp [pf, setPrevAt, wr, h]

/-- One iteration of the linking loop, at loop counter `i`. -/
def linkStep (b : Buf) (i : Nat) : Buf := setPrevAt (setNextAt b (i - 1) i) i (i - 1)

/-- The whole linking phase: the two wrap-around writes, then the loop
for `i = 1 .. n-1`. -/
def initLinks (n : Nat) (b0 : Buf) : Buf :=
  (List.range (n - 1)).foldl (fun b k => linkStep b (k + 1))
    (setNextAt (setPrevAt b0 0 (n - 1)) (n - 1) 0)

theorem initLinks_fold (n : Nat) (_hn : 2 ≤ n) (b0 : Buf) :
    ∀ m, m ≤ n - 1 →
      (∀ j < m, nf ((List.range m).foldl (fun b k => linkStep b (k + 1))
          (setNextAt (setPrevAt b0 0 (n - 1)) (n - 1) 0)) j = j + 1) ∧
      nf ((List.range m).foldl (fun b k => linkStep b (k + 1))
          (setNextAt (setPrevAt b0 0 (n - 1)) (n - 1) 0)) (n - 1) = 0 ∧
      (∀ j, 1 ≤ j → j ≤ m → pf ((List.range m).foldl (fun b k => linkStep b (k + 1))
          (setNextAt (setPrevAt b0 0 (n - 1)) (n - 1) 0)) j = j - 1) ∧
      pf ((List.range m).foldl (fun b k => linkStep b (k + 1))
          (setNextAt (setPrevAt b0 0 (n - 1)) (n - 1) 0)) 0 = n - 1 := by
  intro m
  induction m with
  | zero =>
      intro _
      refine ⟨by omega, ?_, by omega, ?_⟩
      · simp [List.range_zero, nf_setNextAt, nf_setPrevAt]
      · simp [List.range_zero, pf_setNextAt, pf_setPrevAt]
  | succ m ih =>
      intro hm
      obtain ⟨ih1, ih2, ih3, ih4⟩ := ih (by omega)
      rw [List.range_succ, List.foldl_append, List.foldl_cons, List.foldl_nil]
      set bm := (List.range m).foldl (fun b k => linkStep b (k + 1))
        (setNextAt (setPrevAt b0 0 (n - 1)) (n - 1) 0) with hbm
      have hstep : linkStep bm (m + 1) = setPrevAt (setNextAt bm m (m + 1)) (m + 1) m := by
        simp [linkStep]
      rw [hstep]
      refine ⟨?_, ?_, ?_, ?_⟩
      · intro j hj
        rw [nf_setPrevAt, nf_setNextAt]
        by_cases h : j = m
        · simp [h]
        · rw [if_neg h]
          exact ih1 j (by omega)
      · rw [nf_setPrevAt, nf_setNextAt, if_neg (by omega)]
        exact ih2
      · intro j hj1 hj2
        rw [pf_setPrevAt, pf_setNextAt]
        by_cases h : j = m + 1
        · simp [h]
        · rw [if_neg h]
          exact ih3 j hj1 (by omega)
      · rw [pf_setPrevAt, pf_setNextAt, if_neg (by omega)]
        exact ih4

/-- After the linking phase the forward link of every live slot is the
successor modulo `n`. -/
theorem nf_initLinks {n : Nat} (hn : 2 ≤ n) (b0 : Buf) :
    ∀ j < n, nf (initLinks n b0) j = (j + 1) % n := by
  intro j hj
  obtain ⟨h1, h2, _, _⟩ := initLinks_fold n hn b0 (n - 1) le_rfl
  by_cases h : j = n - 1
  · subst h
    rw [initLinks, h2, Nat.sub_add_cancel (by omega), Nat.mod_self]
  · rw [initLinks, h1 j (by omega), Nat.mod_eq_of_lt (by omega)]

/-- After the linking phase the backward link of every live slot is the
predecessor modulo `n`. -/
theorem pf_initLinks {n : Nat} (hn : 2 ≤ n) (b0 : Buf) :
    ∀ j < n, pf (initLinks n b0) j = (j + (n - 1)) % n := by
  intro j hj
  obtain ⟨_, _, h3, h4⟩ := initLinks_fold n hn b0 (n - 1) le_rfl
  by_cases h : j = 0
  · subst h
    rw [initLinks, h4, Nat.mod_eq_of_lt (by omega)]
    omega
  · rw [initLinks, h3 j (by omega) (by omega)]
    have : j + (n - 1) = (j - 1) + n := by omega
    rw [this, Nat.add_mod_right, Nat.mod_eq_of_lt (by omega)]

/-- Iterating the successor-mod-`n` map. -/
theorem iterate_succMod (n : Nat) (hn : 1 ≤ n) (k : Nat) :
    ∀ j < n, (fun x => (x + 1) % n)^[k] j = (j + k) % n := by
  induction k with
  | zero => intro j hj; simp [Nat.mod_eq_of_lt hj]
  | succ k ih =>
      intro j hj
      rw [Function.iterate_succ_apply]
      have h1 : (j + 1) % n < n := Nat.mod_lt _ (by omega)
      rw [ih _ h1, Nat.mod_add_mod]
      congr 1
      omega

/-- Iterates of two functions agreeing below `n` coincide there. -/
theorem iterate_congr_fun {n : Nat} {f g : Nat → Nat}
    (hag : ∀ j < n, f j = g j) (hb : ∀ j < n, g j < n) :
    ∀ k, ∀ s < n, f^[k] s = g^[k] s := by
  intro k
  induction k with
  | zero => intro s _; simp
  | succ k ih =>
      intro s hs
      rw [Function.iterate_succ_apply, Function.iterate_succ_apply, hag s hs]
      exact ih _ (hb s hs)

theorem good_initLinks {n : Nat} (hn : 2 ≤ n) (b0 : Buf) :
    good n (initLinks n b0) := by
  have hnf := nf_initLinks hn b0
  have hpf := pf_initLinks hn b0
  have hpos : 0 < n := by omega
  refine ⟨?_, ⟨?_, ?_⟩, ?_, ?_⟩
  · intro j hj
    rw [hnf j hj, hpf j hj]
    exact ⟨Nat.mod_lt _ hpos, Nat.mod_lt _ hpos⟩
  · intro j hj
    rw [hnf j hj, hpf _ (Nat.mod_lt _ hpos), Nat.mod_add_mod]
    have : j + 1 + (n - 1) = j + n := by omega
    rw [this, Nat.add_mod_right, Nat.mod_eq_of_lt hj]
  · intro j hj
    rw [hpf j hj, hnf _ (Nat.mod_lt _ hpos), Nat.mod_add_mod]
    have : j + (n - 1) + 1 = j + n := by omega
    rw [this, Nat.add_mod_right, Nat.mod_eq_of_lt hj]
  · intro s hs
    rw [iterate_congr_fun hnf (fun j _ => Nat.mod_lt _ hpos) n s hs,
      iterate_succMod n (by omega) n s hs, Nat.add_mod_right, Nat.mod_eq_of_lt hs]
  · intro s hs k hk1 hk2 hcon
    rw [iterate_congr_fun hnf (fun j _ => Nat.mod_lt _ hpos) k s hs,
      iterate_succMod n (by omega) k s hs] at hcon
    rcases Nat.lt_or_ge (s + k) n with h | h
    · rw [Nat.mod_eq_of_lt h] at hcon
      omega
    · have hlt : s + k - n < n := by omega
      rw [Nat.mod_eq_sub_mod h, Nat.mod_eq_of_lt hlt] at hcon
      omega

/-! ## Consequences of the chain invariant -/

/-- Walking backward undoes walking forward. -/
theorem iterate_cancel {n : Nat} {b : Buf} (h : good n b) :
    ∀ m, ∀ x < n, (pf b)^[m] ((nf b)^[m] x) = x := by
  intro m
  induction m with
  | zero => intro x _; simp
  | succ m ih =>
      intro x hx
      rw [Function.iterate_succ_apply' (nf b), Function.iterate_succ_apply (pf b),
        (good_roundTrip h).1 _ (iterate_lt (good_bounded h) m x hx)]
      exact ih x hx

/-- In a good chain every live slot is reachable from every live slot in
fewer than `n` forward steps. -/
theorem reach {n : Nat} {b : Buf} (h : good n b) {s t : Nat}
    (hs : s < n) (ht : t < n) : ∃ k < n, (nf b)^[k] s = t := by
  have key : ∀ a b' : Fin n, a.1 ≤ b'.1 →
      (nf b)^[a.1] s = (nf b)^[b'.1] s → a = b' := by
    intro a b' hab heq
    obtain ⟨m, hm⟩ : ∃ m, b'.1 = a.1 + m := ⟨b'.1 - a.1, by omega⟩
    have h2 : (nf b)^[a.1] s = (nf b)^[a.1] ((nf b)^[m] s) := by
      rw [heq, hm, Function.iterate_add_apply]
    have h3 := congrArg ((pf b)^[a.1]) h2
    rw [iterate_cancel h a.1 s hs,
      iterate_cancel h a.1 _ (iterate_lt (good_bounded h) m s hs)] at h3
    by_cases hm0 : m = 0
    · apply Fin.ext; omega
    · exact absurd h3.symm
        ((good_cycle h).2 s hs m (by omega) (by omega))
  have hinj : Function.Injective
      (fun k : Fin n => (⟨(nf b)^[k.1] s, iterate_lt (good_bounded h) k.1 s hs⟩ : Fin n)) := by
    intro a b' hab
    have heq : (nf b)^[a.1] s = (nf b)^[b'.1] s := congrArg Fin.val hab
    rcases Nat.le_total a.1 b'.1 with hle | hle
    · exact key a b' hle heq
    · exact (key b' a hle heq.symm).symm
  have hpos : 0 < n := Nat.lt_of_le_of_lt (Nat.zero_le s) hs
  have hsurj := Finite.surjective_of_injective hinj
  obtain ⟨k, hk⟩ := hsurj ⟨t, ht⟩
  exact ⟨k.1, k.2, congrArg Fin.val hk⟩

theorem iterate_lt_fun {n : Nat} {f : Nat → Nat} (hb : ∀ j < n, f j < n) :
    ∀ k, ∀ s < n, f^[k] s < n := by
  intro k
  induction k with
  | zero => intro s hs; simpa using hs
  | succ k ih =>
      intro s hs
      rw [Function.iterate_succ_apply]
      exact ih _ (hb s hs)

/-- On a single cycle the first `n` iterates from any live start are
pairwise distinct. -/
theorem cycle_iterate_distinct {n : Nat} {f : Nat → Nat}
    (hcy : singleCycle n f) {s : Nat} (hs : s < n) :
    ∀ a < n, ∀ b' < n, f^[a] s = f^[b'] s → a = b' := by
  have key : ∀ a < n, ∀ b' < n, a ≤ b' → f^[a] s = f^[b'] s → a = b' := by
    intro a ha b' hb' hab heq
    obtain ⟨m, hm⟩ : ∃ m, b' = a + m := ⟨b' - a, by omega⟩
    have h1 : f^[n - a + a] s = s := by
      rw [Nat.sub_add_cancel (by omega)]
      exact hcy.1 s hs
    have h2 : f^[n - a] (f^[a] s) = s := by
      rw [← Function.iterate_add_apply]
      exact h1
    have h3 : f^[n - a] (f^[b'] s) = f^[m] s := by
      rw [← Function.iterate_add_apply]
      have : n - a + b' = m + n := by omega
      rw [this, Function.iterate_add_apply, hcy.1 s hs]
    rw [heq, h3] at h2
    by_cases hm0 : m = 0
    · omega
    · exact absurd h2 (hcy.2 s hs m (by omega) (by omega))
  intro a ha b' hb' heq
  rcases Nat.le_total a b' with hle | hle
  · exact key a ha b' hb' hle heq
  · exact (key b' hb' a ha hle heq.symm).symm

/-- On a bounded single cycle every live slot is reached from every live
start in fewer than `n` steps. -/
theorem cycle_reach {n : Nat} {f : Nat → Nat} (hb : ∀ j < n, f j < n)
    (hcy : singleCycle n f) {s t : Nat} (hs : s < n) (ht : t < n) :
    ∃ k < n, f^[k] s = t := by
  have hinj : Function.Injective
      (fun k : Fin n => (⟨f^[k.1] s, iterate_lt_fun hb k.1 s hs⟩ : Fin n)) := by
    intro a b' hab
    have heq : f^[a.1] s = f^[b'.1] s := congrArg Fin.val hab
    exact Fin.ext (cycle_iterate_distinct hcy hs a.1 a.2 b'.1 b'.2 heq)
  have hsurj := Finite.surjective_of_injective hinj
  obtain ⟨k, hk⟩ := hsurj ⟨t, ht⟩
  exact ⟨k.1, k.2, congrArg Fin.val hk⟩

theorem two_cycle_iter {b : Buf} {x y : Nat}
    (hxy : nf b x = y) (hyx : nf b y = x) :
    ∀ k, (nf b)^[k] x = x ∨ (nf b)^[k] x = y := by
  intro k
  induction k with
  | zero => left; simp
  | succ k ih =>
      rw [Function.iterate_succ_apply']
      rcases ih with h1 | h1 <;> rw [h1]
      · right; exact hxy
      · left; exact hyx

/-- A good chain with at least three live slots has no forward 2-cycle. -/
theorem not_two_cycle {n : Nat} {b : Buf} (h : good n b) {x y z : Nat}
    (hx : x < n) (hz : z < n) (hxy : nf b x = y) (hyx : nf b y = x)
    (hzx : z ≠ x) (hzy : z ≠ y) : False := by
  obtain ⟨k, _, hke⟩ := reach h hx hz
  rcases two_cycle_iter hxy hyx k with h1 | h1
  · exact hzx (hke.symm.trans h1)
  · exact hzy (hke.symm.trans h1)

/-! ## The shuffle swap step

`thrasher.c` lines 86-133.  `swapStep b0 i c` performs the pointer surgery
of one iteration of the shuffle loop: the by-value copies `choice_e` and
`curr_e` are taken up front, the (up to) four neighbour pointers are
repaired, the two entries are exchanged wholesale, and accidental
self-loops are undone. -/

def swapStep (b0 : Buf) (i c : Nat) : Buf :=
  let choice_e := b0 c
  let curr_e := b0 i
  let before_i := curr_e.prev
  let after_choice := choice_e.next
  let after_i := curr_e.next
  let before_choice := choice_e.prev
  -- `if (before_i != after_choice) { before_i->next = buf_ll + choice;
  --  after_choice->prev = buf_ll + i; } else { swap after_choice's links }`
  let b1 :=
    if before_i = after_choice then
      wr b0 after_choice
        { b0 after_choice with next := (b0 after_choice).prev, prev := (b0 after_choice).next }
    else
      setPrevAt (setNextAt b0 before_i c) after_choice i
  -- `if (after_i != before_choice) { after_i->prev = buf_ll + choice;
  --  before_choice->next = buf_ll + i; } else { swap after_i's links }`
  let b2 :=
    if after_i = before_choice then
      wr b1 after_i
        { b1 after_i with next := (b1 after_i).prev, prev := (b1 after_i).next }
    else
      setNextAt (setPrevAt b1 after_i c) before_choice i
  -- `buf_ll[choice] = curr_e; buf_ll[i] = choice_e;`
  let b4 := wr (wr b2 c curr_e) i choice_e
  -- `if (buf_ll[i].next == buf_ll + i) { buf_ll[i].next = buf_ll + choice;
  --  buf_ll[choice].prev = buf_ll + i; }`
  let b5 :=
    if (b4 i).next = i then
      setPrevAt (setNextAt b4 i c) c i
    else b4
  -- `if (buf_ll[choice].next == buf_ll + choice) { buf_ll[i].prev = buf_ll + choice;
  --  buf_ll[choice].next = buf_ll + i; }`
  if (b5 c).next = c then
    setNextAt (setPrevAt b5 i c) c i
  else b5

/-- A slot other than `i`, `c` and their four neighbours is written by no
branch of the swap step. -/
theorem swapStep_untouched {b : Buf} {i c j : Nat}
    (hji : j ≠ i) (hjc : j ≠ c) (hjP : j ≠ (b i).prev) (hjS : j ≠ (b i).next)
    (hjPc : j ≠ (b c).prev) (hjSc : j ≠ (b c).next) :
    swapStep b i c j = b j := by
  simp [swapStep, setNextAt, setPrevAt, ite_apply, wr_other,
    hji, hjc, hjP, hjS, hjPc, hjSc]

/-- A slot other than `i`, `c` and their four neighbours is not relabelled
by the conjugation either. -/
theorem conj_untouched {n : Nat} {b : Buf} (h : good n b) {i c j : Nat}
    (hj : j < n) (hji : j ≠ i) (hjc : j ≠ c)
    (hjP : j ≠ (b i).prev) (hjS : j ≠ (b i).next)
    (hjPc : j ≠ (b c).prev) (hjSc : j ≠ (b c).next) :
    conj b i c j = b j := by
  have rt1 := (good_roundTrip h).1
  have rt2 := (good_roundTrip h).2
  have h1 : (b j).next ≠ i := by
    intro hh
    have := rt1 j hj
    simp only [nf, pf] at this
    rw [hh] at this
    exact hjP this.symm
  have h2 : (b j).next ≠ c := by
    intro hh
    have := rt1 j hj
    simp only [nf, pf] at this
    rw [hh] at this
    exact hjPc this.symm
  have h3 : (b j).prev ≠ i := by
    intro hh
    have := rt2 j hj
    simp only [nf, pf] at this
    rw [hh] at this
    exact hjS this.symm
  have h4 : (b j).prev ≠ c := by
    intro hh
    have := rt2 j hj
    simp only [nf, pf] at this
    rw [hh] at this
    exact hjSc this.symm
  simp [conj, nf, pf, tau_other hji hjc, tau_other h1 h2, tau_other h3 h4]

/-- Degenerate swap with `choice == i`: the step rewrites only existing
values, so the buffer is unchanged (= conjugation by the identity). -/
theorem swapConj_case1 {n : Nat} {b : Buf} (h : good n b) (hn : 2 ≤ n)
    {i : Nat} (hi : i < n) :
    ∀ j < n, swapStep b i i j = conj b i i j := by
  have rt1 := (good_roundTrip h).1
  have rt2 := (good_roundTrip h).2
  have hSi : nf b i ≠ i := no_self_loop h hn i hi
  have hPi : pf b i ≠ i := no_self_loop_prev h hn i hi
  have hpfS : pf b (nf b i) = i := rt1 i hi
  have hnfP : nf b (pf b i) = i := rt2 i hi
  simp only [nf, pf] at hSi hPi hpfS hnfP
  have hSi2 : ¬ (i = (b i).next) := fun hh => hSi hh.symm
  have hPi2 : ¬ (i = (b i).prev) := fun hh => hPi hh.symm
  intro j hj
  have hconj : conj b i i j = b j := by simp [conj, tau_same, nf, pf]
  rw [hconj]
  by_cases hPS : (b i).prev = (b i).next
  · rcases eq_or_ne j i with hj1 | hj1
    · simp [swapStep, setNextAt, setPrevAt, wr, Entry.ext_iff,
        hj1, hPS, hSi, hPi, hSi2, hPi2, hpfS, hnfP]
    · rcases eq_or_ne j ((b i).next) with hj2 | hj2
      · simp [swapStep, setNextAt, setPrevAt, wr, Entry.ext_iff,
          hj2, hPS, hSi, hPi, hSi2, hPi2, hpfS, hnfP, hj1]
      · exact swapStep_untouched hj1 hj1 (by rw [hPS]; exact hj2) hj2
          (by rw [hPS]; exact hj2) hj2
  · have hPS2 : ¬ ((b i).next = (b i).prev) := fun hh => hPS hh.symm
    rcases eq_or_ne j i with hj1 | hj1
    · simp [swapStep, setNextAt, setPrevAt, wr, Entry.ext_iff,
        hj1, hPS, hPS2, hSi, hPi, hSi2, hPi2, hpfS, hnfP]
    · rcases eq_or_ne j ((b i).next) with hj2 | hj2
      · simp [swapStep, setNextAt, setPrevAt, wr, Entry.ext_iff,
          hj2, hPS, hPS2, hSi, hPi, hSi2, hPi2, hpfS, hnfP, hj1]
      · rcases eq_or_ne j ((b i).prev) with hj3 | hj3
        · simp [swapStep, setNextAt, setPrevAt, wr, Entry.ext_iff,
            hj3, hPS, hPS2, hSi, hPi, hSi2, hPi2, hpfS, hnfP, hj1]
        · exact swapStep_untouched hj1 hj1 hj3 hj2 hj3 hj2

/-- Swap across a 2-cycle (`i` and `choice` link to each other both ways):
the four degenerate writes and the two self-loop repairs produce exactly
the relabelled buffer. -/
theorem swapConj_case2 {n : Nat} {b : Buf} (h : good n b) {i c : Nat}
    (hi : i < n) (hc : c < n) (hic : i ≠ c)
    (hd1 : nf b i = c) (he1 : nf b c = i) :
    ∀ j < n, swapStep b i c j = conj b i c j := by
  have rt1 := (good_roundTrip h).1
  have hP : pf b i = c := by have := rt1 c hc; rwa [he1] at this
  have hPc : pf b c = i := by have := rt1 i hi; rwa [hd1] at this
  have hci : ¬ (c = i) := fun hh => hic hh.symm
  have hic2 : ¬ (i = c) := hic
  simp only [nf, pf] at hd1 he1 hP hPc
  intro j hj
  rcases eq_or_ne j i with hj1 | hj1
  · simp [swapStep, setNextAt, setPrevAt, wr, conj, tau, nf, pf, Entry.ext_iff,
      hj1, hd1, he1, hP, hPc, hic2, hci]
  · rcases eq_or_ne j c with hj2 | hj2
    · simp [swapStep, setNextAt, setPrevAt, wr, conj, tau, nf, pf, Entry.ext_iff,
        hj2, hd1, he1, hP, hPc, hic2, hci]
    · rw [swapStep_untouched hj1 hj2 (by rw [hP]; exact hj2) (by rw [hd1]; exact hj2)
        (by rw [hPc]; exact hj1) (by rw [he1]; exact hj1),
        conj_untouched h hj hj1 hj2 (by rw [hP]; exact hj2) (by rw [hd1]; exact hj2)
        (by rw [hPc]; exact hj1) (by rw [he1]; exact hj1)]

/-- Swap with `choice` directly after `i` in a 3-cycle
(`i → choice → p → i`). -/
theorem swapConj_case3 {n : Nat} {b : Buf} (h : good n b) (hn : 2 ≤ n) {i c : Nat}
    (hi : i < n) (hc : c < n) (hic : i ≠ c)
    (hd1 : nf b i = c) (he1 : nf b c ≠ i) (he2 : pf b i = nf b c) :
    ∀ j < n, swapStep b i c j = conj b i c j := by
  have rt1 := (good_roundTrip h).1
  have rt2 := (good_roundTrip h).2
  have hPc : pf b c = i := by have := rt1 i hi; rwa [hd1] at this
  have hnfSc : nf b (nf b c) = i := by
    have := rt2 i hi; rwa [he2] at this
  have hpfSc : pf b (nf b c) = c := rt1 c hc
  have hScc : nf b c ≠ c := no_self_loop h hn c hc
  simp only [nf, pf] at hd1 he1 he2 hPc hnfSc hpfSc hScc
  intro j hj
  rcases eq_or_ne j i with hj1 | hj1
  · simp [swapStep, setNextAt, setPrevAt, wr, conj, tau, nf, pf, Entry.ext_iff,
      hj1, hd1, he1, he1.symm, he2, hPc, hnfSc, hpfSc, hScc, hScc.symm, hic, hic.symm]
  · rcases eq_or_ne j c with hj2 | hj2
    · simp [swapStep, setNextAt, setPrevAt, wr, conj, tau, nf, pf, Entry.ext_iff,
        hj2, hd1, he1, he1.symm, he2, hPc, hnfSc, hpfSc, hScc, hScc.symm, hic, hic.symm]
    · rcases eq_or_ne j ((b c).next) with hj3 | hj3
      · simp [swapStep, setNextAt, setPrevAt, wr, conj, tau, nf, pf, Entry.ext_iff,
          hj3, hd1, he1, he1.symm, he2, hPc, hnfSc, hpfSc, hScc, hScc.symm, hic, hic.symm,
          hj1, hj2]
      · rw [swapStep_untouched hj1 hj2 (by rw [he2]; exact hj3) (by rw [hd1]; exact hj2)
          (by rw [hPc]; exact hj1) hj3,
          conj_untouched h hj hj1 hj2 (by rw [he2]; exact hj3) (by rw [hd1]; exact hj2)
          (by rw [hPc]; exact hj1) hj3]

/-- Swap with `choice` directly after `i`, at distance at least three
back around to `i`. -/
theorem swapConj_case4 {n : Nat} {b : Buf} (h : good n b) (hn : 2 ≤ n) {i c : Nat}
    (hi : i < n) (hc : c < n) (hic : i ≠ c)
    (hd1 : nf b i = c) (he1 : nf b c ≠ i) (he2 : pf b i ≠ nf b c) :
    ∀ j < n, swapStep b i c j = conj b i c j := by
  have rt1 := (good_roundTrip h).1
  have rt2 := (good_roundTrip h).2
  have hb := good_bounded h
  have hPc : pf b c = i := by have := rt1 i hi; rwa [hd1] at this
  have hnfP : nf b (pf b i) = i := rt2 i hi
  have hpfSc : pf b (nf b c) = c := rt1 c hc
  have hPi : pf b i ≠ i := no_self_loop_prev h hn i hi
  have hScc : nf b c ≠ c := no_self_loop h hn c hc
  have hPne_c : pf b i ≠ c := by
    intro hh
    rw [← hh] at he1
    exact he1 hnfP
  have hpfP_ne_i : pf b (pf b i) ≠ i := by
    intro hh
    have := rt2 _ ((hb i hi).2)
    rw [hh, hd1] at this
    exact hPne_c this.symm
  have hpfP_ne_c : pf b (pf b i) ≠ c := by
    intro hh
    have := rt2 _ ((hb i hi).2)
    rw [hh] at this
    exact he2 this.symm
  have hnfSc_ne_i : nf b (nf b c) ≠ i := by
    intro hh
    have := rt1 _ ((hb c hc).1)
    rw [hh] at this
    exact he2 this
  have hnfSc_ne_c : nf b (nf b c) ≠ c := by
    intro hh
    have := rt1 _ ((hb c hc).1)
    rw [hh, hPc] at this
    exact he1 this.symm
  simp only [nf, pf] at hd1 he1 he2 hPc hnfP hpfSc hPi hScc hPne_c
  simp only [nf, pf] at hpfP_ne_i hpfP_ne_c hnfSc_ne_i hnfSc_ne_c
  intro j hj
  rcases eq_or_ne j i with hj1 | hj1
  · simp [swapStep, setNextAt, setPrevAt, wr, conj, tau, nf, pf, Entry.ext_iff,
      hj1, hd1, he1, he1.symm, he2, he2.symm, hPc, hnfP, hpfSc, hPi, hPi.symm,
      hScc, hScc.symm, hPne_c, hPne_c.symm, hpfP_ne_i, hpfP_ne_i.symm,
      hpfP_ne_c, hpfP_ne_c.symm, hnfSc_ne_i, hnfSc_ne_i.symm,
      hnfSc_ne_c, hnfSc_ne_c.symm, hic, hic.symm]
  · rcases eq_or_ne j c with hj2 | hj2
    · simp [swapStep, setNextAt, setPrevAt, wr, conj, tau, nf, pf, Entry.ext_iff,
        hj2, hd1, he1, he1.symm, he2, he2.symm, hPc, hnfP, hpfSc, hPi, hPi.symm,
        hScc, hScc.symm, hPne_c, hPne_c.symm, hpfP_ne_i, hpfP_ne_i.symm,
        hpfP_ne_c, hpfP_ne_c.symm, hnfSc_ne_i, hnfSc_ne_i.symm,
        hnfSc_ne_c, hnfSc_ne_c.symm, hic, hic.symm]
    · rcases eq_or_ne j ((b i).prev) with hj3 | hj3
      · simp [swapStep, setNextAt, setPrevAt, wr, conj, tau, nf, pf, Entry.ext_iff,
          hj3, hd1, he1, he1.symm, he2, he2.symm, hPc, hnfP, hpfSc, hPi, hPi.symm,
          hScc, hScc.symm, hPne_c, hPne_c.symm, hpfP_ne_i, hpfP_ne_i.symm,
          hpfP_ne_c, hpfP_ne_c.symm, hnfSc_ne_i, hnfSc_ne_i.symm,
          hnfSc_ne_c, hnfSc_ne_c.symm, hic, hic.symm, hj1, hj2]
      · rcases eq_or_ne j ((b c).next) with hj4 | hj4
        · simp [swapStep, setNextAt, setPrevAt, wr, conj, tau, nf, pf, Entry.ext_iff,
            hj4, hd1, he1, he1.symm, he2, he2.symm, hPc, hnfP, hpfSc, hPi, hPi.symm,
            hScc, hScc.symm, hPne_c, hPne_c.symm, hpfP_ne_i, hpfP_ne_i.symm,
            hpfP_ne_c, hpfP_ne_c.symm, hnfSc_ne_i, hnfSc_ne_i.symm,
            hnfSc_ne_c, hnfSc_ne_c.symm, hic, hic.symm, hj1, hj2]
        · rw [swapStep_untouched hj1 hj2 hj3 (by rw [hd1]; exact hj2)
            (by rw [hPc]; exact hj1) hj4,
            conj_untouched h hj hj1 hj2 hj3 (by rw [hd1]; exact hj2)
            (by rw [hPc]; exact hj1) hj4]

/-- Swap with `choice` directly before `i` in a 3-cycle
(`i → s → choice → i`). -/
theorem swapConj_case5 {n : Nat} {b : Buf} (h : good n b) (hn : 2 ≤ n) {i c : Nat}
    (hi : i < n) (hc : c < n) (hic : i ≠ c)
    (hd1 : nf b i ≠ c) (he1 : nf b c = i) (hd2 : nf b i = pf b c) :
    ∀ j < n, swapStep b i c j = conj b i c j := by
  have rt1 := (good_roundTrip h).1
  have rt2 := (good_roundTrip h).2
  have hP : pf b i = c := by have := rt1 c hc; rwa [he1] at this
  have hPc : pf b c = nf b i := hd2.symm
  have hpfS : pf b (nf b i) = i := rt1 i hi
  have hnfS : nf b (nf b i) = c := by
    have := rt2 c hc; rwa [← hd2] at this
  have hSi : nf b i ≠ i := no_self_loop h hn i hi
  simp only [nf, pf] at hd1 he1 hd2 hP hPc hpfS hnfS hSi
  intro j hj
  rcases eq_or_ne j i with hj1 | hj1
  · simp [swapStep, setNextAt, setPrevAt, wr, conj, tau, nf, pf, Entry.ext_iff,
      hj1, hd1, hd1.symm, he1, hPc, hpfS, hnfS, hSi, hSi.symm, hic, hic.symm, hP]
  · rcases eq_or_ne j c with hj2 | hj2
    · simp [swapStep, setNextAt, setPrevAt, wr, conj, tau, nf, pf, Entry.ext_iff,
        hj2, hd1, hd1.symm, he1, hPc, hpfS, hnfS, hSi, hSi.symm, hic, hic.symm, hP]
    · rcases eq_or_ne j ((b i).next) with hj3 | hj3
      · simp [swapStep, setNextAt, setPrevAt, wr, conj, tau, nf, pf, Entry.ext_iff,
          hj3, hd1, hd1.symm, he1, hPc, hpfS, hnfS, hSi, hSi.symm, hic, hic.symm, hP,
          hj1, hj2]
      · rw [swapStep_untouched hj1 hj2 (by rw [hP]; exact hj2) hj3
          (by rw [hPc]; exact hj3) (by rw [he1]; exact hj1),
          conj_untouched h hj hj1 hj2 (by rw [hP]; exact hj2) hj3
          (by rw [hPc]; exact hj3) (by rw [he1]; exact hj1)]

/-- Swap with `choice` directly before `i`, at distance at least three
from `i` forward to `choice`. -/
theorem swapConj_case6 {n : Nat} {b : Buf} (h : good n b) (hn : 2 ≤ n) {i c : Nat}
    (hi : i < n) (hc : c < n) (hic : i ≠ c)
    (hd1 : nf b i ≠ c) (he1 : nf b c = i) (hd2 : nf b i ≠ pf b c) :
    ∀ j < n, swapStep b i c j = conj b i c j := by
  have rt1 := (good_roundTrip h).1
  have rt2 := (good_roundTrip h).2
  have hb := good_bounded h
  have hP : pf b i = c := by have := rt1 c hc; rwa [he1] at this
  have hpfS : pf b (nf b i) = i := rt1 i hi
  have hnfPc : nf b (pf b c) = c := rt2 c hc
  have hSi : nf b i ≠ i := no_self_loop h hn i hi
  have hPcc : pf b c ≠ c := no_self_loop_prev h hn c hc
  have hPc_ne_i : pf b c ≠ i := by
    intro hh
    rw [hh] at hnfPc
    exact hd1 hnfPc
  have hnfS_ne_i : nf b (nf b i) ≠ i := by
    intro hh
    have := rt1 _ ((hb i hi).1)
    rw [hh, hP] at this
    exact hd1 this.symm
  have hnfS_ne_c : nf b (nf b i) ≠ c := by
    intro hh
    have := rt1 _ ((hb i hi).1)
    rw [hh] at this
    exact hd2 this.symm
  have hpfPc_ne_i : pf b (pf b c) ≠ i := by
    intro hh
    have := rt2 _ ((hb c hc).2)
    rw [hh] at this
    exact hd2 this
  have hpfPc_ne_c : pf b (pf b c) ≠ c := by
    intro hh
    have := rt2 _ ((hb c hc).2)
    rw [hh, he1] at this
    exact hPc_ne_i this.symm
  simp only [nf, pf] at hd1 he1 hd2 hP hpfS hnfPc hSi hPcc hPc_ne_i
  simp only [nf, pf] at hnfS_ne_i hnfS_ne_c hpfPc_ne_i hpfPc_ne_c
  intro j hj
  rcases eq_or_ne j i with hj1 | hj1
  · simp [swapStep, setNextAt, setPrevAt, wr, conj, tau, nf, pf, Entry.ext_iff,
      hj1, hd1, hd1.symm, he1, hd2, hd2.symm, hP, hpfS, hnfPc, hSi, hSi.symm,
      hPcc, hPcc.symm, hPc_ne_i, hPc_ne_i.symm, hnfS_ne_i, hnfS_ne_i.symm,
      hnfS_ne_c, hnfS_ne_c.symm, hpfPc_ne_i, hpfPc_ne_i.symm,
      hpfPc_ne_c, hpfPc_ne_c.symm, hic, hic.symm]
  · rcases eq_or_ne j c with hj2 | hj2
    · simp [swapStep, setNextAt, setPrevAt, wr, conj, tau, nf, pf, Entry.ext_iff,
        hj2, hd1, hd1.symm, he1, hd2, hd2.symm, hP, hpfS, hnfPc, hSi, hSi.symm,
        hPcc, hPcc.symm, hPc_ne_i, hPc_ne_i.symm, hnfS_ne_i, hnfS_ne_i.symm,
        hnfS_ne_c, hnfS_ne_c.symm, hpfPc_ne_i, hpfPc_ne_i.symm,
        hpfPc_ne_c, hpfPc_ne_c.symm, hic, hic.symm]
    · rcases eq_or_ne j ((b i).next) with hj3 | hj3
      · simp [swapStep, setNextAt, setPrevAt, wr, conj, tau, nf, pf, Entry.ext_iff,
          hj3, hd1, hd1.symm, he1, hd2, hd2.symm, hP, hpfS, hnfPc, hSi, hSi.symm,
          hPcc, hPcc.symm, hPc_ne_i, hPc_ne_i.symm, hnfS_ne_i, hnfS_ne_i.symm,
          hnfS_ne_c, hnfS_ne_c.symm, hpfPc_ne_i, hpfPc_ne_i.symm,
          hpfPc_ne_c, hpfPc_ne_c.symm, hic, hic.symm, hj1, hj2]
      · rcases eq_or_ne j ((b c).prev) with hj4 | hj4
        · simp [swapStep, setNextAt, setPrevAt, wr, conj, tau, nf, pf, Entry.ext_iff,
            hj4, hd1, hd1.symm, he1, hd2, hd2.symm, hP, hpfS, hnfPc, hSi, hSi.symm,
            hPcc, hPcc.symm, hPc_ne_i, hPc_ne_i.symm, hnfS_ne_i, hnfS_ne_i.symm,
            hnfS_ne_c, hnfS_ne_c.symm, hpfPc_ne_i, hpfPc_ne_i.symm,
            hpfPc_ne_c, hpfPc_ne_c.symm, hic, hic.symm, hj1, hj2]
        · rw [swapStep_untouched hj1 hj2 (by rw [hP]; exact hj2) hj3 hj4
            (by rw [he1]; exact hj1),
            conj_untouched h hj hj1 hj2 (by rw [hP]; exact hj2) hj3 hj4
            (by rw [he1]; exact hj1)]

/-- Swap at mutual distance two (a 4-cycle `i → s → choice → p → i`):
both degenerate link-swaps fire. -/
theorem swapConj_case7 {n : Nat} {b : Buf} (h : good n b) (hn : 2 ≤ n) {i c : Nat}
    (hi : i < n) (hc : c < n) (hic : i ≠ c)
    (hd1 : nf b i ≠ c) (he1 : nf b c ≠ i)
    (hd2 : nf b i = pf b c) (he2 : pf b i = nf b c) :
    ∀ j < n, swapStep b i c j = conj b i c j := by
  have rt1 := (good_roundTrip h).1
  have rt2 := (good_roundTrip h).2
  have hPc : pf b c = nf b i := hd2.symm
  have hSc : nf b c = pf b i := he2.symm
  have hpfS : pf b (nf b i) = i := rt1 i hi
  have hnfS : nf b (nf b i) = c := by have := rt2 c hc; rwa [← hd2] at this
  have hnfP : nf b (pf b i) = i := rt2 i hi
  have hpfP : pf b (pf b i) = c := by have := rt1 c hc; rwa [← he2] at this
  have hSi : nf b i ≠ i := no_self_loop h hn i hi
  have hPi : pf b i ≠ i := no_self_loop_prev h hn i hi
  have hP_ne_c : pf b i ≠ c := by
    intro hh
    rw [hh] at hnfP
    exact he1 hnfP
  have hPS : pf b i ≠ nf b i := by
    intro hh
    rw [hh, hnfS] at hnfP
    exact hic hnfP.symm
  simp only [nf, pf] at hd1 he1 hPc hSc hpfS hnfS hnfP hpfP hSi hPi hP_ne_c hPS
  intro j hj
  rcases eq_or_ne j i with hj1 | hj1
  · simp [swapStep, setNextAt, setPrevAt, wr, conj, tau, nf, pf, Entry.ext_iff,
      hj1, hd1, hd1.symm, he1, he1.symm, hPc, hSc, hpfS, hnfS, hnfP, hpfP,
      hSi, hSi.symm, hPi, hPi.symm, hP_ne_c, hP_ne_c.symm, hPS, hPS.symm,
      hic, hic.symm]
  · rcases eq_or_ne j c with hj2 | hj2
    · simp [swapStep, setNextAt, setPrevAt, wr, conj, tau, nf, pf, Entry.ext_iff,
        hj2, hd1, hd1.symm, he1, he1.symm, hPc, hSc, hpfS, hnfS, hnfP, hpfP,
        hSi, hSi.symm, hPi, hPi.symm, hP_ne_c, hP_ne_c.symm, hPS, hPS.symm,
        hic, hic.symm]
    · rcases eq_or_ne j ((b i).next) with hj3 | hj3
      · simp [swapStep, setNextAt, setPrevAt, wr, conj, tau, nf, pf, Entry.ext_iff,
          hj3, hd1, hd1.symm, he1, he1.symm, hPc, hSc, hpfS, hnfS, hnfP, hpfP,
          hSi, hSi.symm, hPi, hPi.symm, hP_ne_c, hP_ne_c.symm, hPS, hPS.symm,
          hic, hic.symm, hj1, hj2]
      · rcases eq_or_ne j ((b i).prev) with hj4 | hj4
        · simp [swapStep, setNextAt, setPrevAt, wr, conj, tau, nf, pf, Entry.ext_iff,
            hj4, hd1, hd1.symm, he1, he1.symm, hPc, hSc, hpfS, hnfS, hnfP, hpfP,
            hSi, hSi.symm, hPi, hPi.symm, hP_ne_c, hP_ne_c.symm, hPS, hPS.symm,
            hic, hic.symm, hj1, hj2]
        · rw [swapStep_untouched hj1 hj2 hj4 hj3 (by rw [hPc]; exact hj3)
            (by rw [hSc]; exact hj4),
            conj_untouched h hj hj1 hj2 hj4 hj3 (by rw [hPc]; exact hj3)
            (by rw [hSc]; exact hj4)]

/-- Swap with `choice` two forward steps after `i` and at least three
back around to `i`. -/
theorem swapConj_case8 {n : Nat} {b : Buf} (h : good n b) (hn : 2 ≤ n) {i c : Nat}
    (hi : i < n) (hc : c < n) (hic : i ≠ c)
    (hd1 : nf b i ≠ c) (he1 : nf b c ≠ i)
    (hd2 : nf b i = pf b c) (he2 : pf b i ≠ nf b c) :
    ∀ j < n, swapStep b i c j = conj b i c j := by
  have rt1 := (good_roundTrip h).1
  have rt2 := (good_roundTrip h).2
  have hb := good_bounded h
  have hPc : pf b c = nf b i := hd2.symm
  have hpfS : pf b (nf b i) = i := rt1 i hi
  have hnfS : nf b (nf b i) = c := by have := rt2 c hc; rwa [← hd2] at this
  have hnfP : nf b (pf b i) = i := rt2 i hi
  have hpfSc : pf b (nf b c) = c := rt1 c hc
  have hSi : nf b i ≠ i := no_self_loop h hn i hi
  have hPi : pf b i ≠ i := no_self_loop_prev h hn i hi
  have hScc : nf b c ≠ c := no_self_loop h hn c hc
  have hP_ne_c : pf b i ≠ c := by
    intro hh
    rw [hh] at hnfP
    exact he1 hnfP
  have hPS : pf b i ≠ nf b i := by
    intro hh
    rw [hh, hnfS] at hnfP
    exact hic hnfP.symm
  have hSc_ne_S : nf b c ≠ nf b i := by
    intro hh
    rw [hh, hpfS] at hpfSc
    exact hic hpfSc
  have hpfP_ne_i : pf b (pf b i) ≠ i := by
    intro hh
    have := rt2 _ ((hb i hi).2)
    rw [hh] at this
    exact hPS this.symm
  have hpfP_ne_c : pf b (pf b i) ≠ c := by
    intro hh
    have := rt2 _ ((hb i hi).2)
    rw [hh] at this
    exact he2 this.symm
  have hnfSc_ne_i : nf b (nf b c) ≠ i := by
    intro hh
    have := rt1 _ ((hb c hc).1)
    rw [hh] at this
    exact he2 this
  have hnfSc_ne_c : nf b (nf b c) ≠ c := by
    intro hh
    have := rt1 _ ((hb c hc).1)
    rw [hh, hPc] at this
    exact hSc_ne_S this.symm
  simp only [nf, pf] at hd1 he1 he2 hPc hpfS hnfS hnfP hpfSc hSi hPi hScc
  simp only [nf, pf] at hP_ne_c hPS hSc_ne_S hpfP_ne_i hpfP_ne_c hnfSc_ne_i hnfSc_ne_c
  intro j hj
  rcases eq_or_ne j i with hj1 | hj1
  · simp [swapStep, setNextAt, setPrevAt, wr, conj, tau, nf, pf, Entry.ext_iff,
      hj1, hd1, hd1.symm, he1, he1.symm, he2, he2.symm, hPc, hpfS, hnfS, hnfP, hpfSc,
      hSi, hSi.symm, hPi, hPi.symm, hScc, hScc.symm, hP_ne_c, hP_ne_c.symm,
      hPS, hPS.symm, hSc_ne_S, hSc_ne_S.symm, hpfP_ne_i, hpfP_ne_i.symm,
      hpfP_ne_c, hpfP_ne_c.symm, hnfSc_ne_i, hnfSc_ne_i.symm,
      hnfSc_ne_c, hnfSc_ne_c.symm, hic, hic.symm]
  · rcases eq_or_ne j c with hj2 | hj2
    · simp [swapStep, setNextAt, setPrevAt, wr, conj, tau, nf, pf, Entry.ext_iff,
        hj2, hd1, hd1.symm, he1, he1.symm, he2, he2.symm, hPc, hpfS, hnfS, hnfP, hpfSc,
        hSi, hSi.symm, hPi, hPi.symm, hScc, hScc.symm, hP_ne_c, hP_ne_c.symm,
        hPS, hPS.symm, hSc_ne_S, hSc_ne_S.symm, hpfP_ne_i, hpfP_ne_i.symm,
        hpfP_ne_c, hpfP_ne_c.symm, hnfSc_ne_i, hnfSc_ne_i.symm,
        hnfSc_ne_c, hnfSc_ne_c.symm, hic, hic.symm]
    · rcases eq_or_ne j ((b i).next) with hj3 | hj3
      · simp [swapStep, setNextAt, setPrevAt, wr, conj, tau, nf, pf, Entry.ext_iff,
          hj3, hd1, hd1.symm, he1, he1.symm, he2, he2.symm, hPc, hpfS, hnfS, hnfP, hpfSc,
          hSi, hSi.symm, hPi, hPi.symm, hScc, hScc.symm, hP_ne_c, hP_ne_c.symm,
          hPS, hPS.symm, hSc_ne_S, hSc_ne_S.symm, hpfP_ne_i, hpfP_ne_i.symm,
          hpfP_ne_c, hpfP_ne_c.symm, hnfSc_ne_i, hnfSc_ne_i.symm,
          hnfSc_ne_c, hnfSc_ne_c.symm, hic, hic.symm, hj1, hj2]
      · rcases eq_or_ne j ((b i).prev) with hj4 | hj4
        · simp [swapStep, setNextAt, setPrevAt, wr, conj, tau, nf, pf, Entry.ext_iff,
            hj4, hd1, hd1.symm, he1, he1.symm, he2, he2.symm, hPc, hpfS, hnfS, hnfP, hpfSc,
            hSi, hSi.symm, hPi, hPi.symm, hScc, hScc.symm, hP_ne_c, hP_ne_c.symm,
            hPS, hPS.symm, hSc_ne_S, hSc_ne_S.symm, hpfP_ne_i, hpfP_ne_i.symm,
            hpfP_ne_c, hpfP_ne_c.symm, hnfSc_ne_i, hnfSc_ne_i.symm,
            hnfSc_ne_c, hnfSc_ne_c.symm, hic, hic.symm, hj1, hj2]
        · rcases eq_or_ne j ((b c).next) with hj5 | hj5
          · simp [swapStep, setNextAt, setPrevAt, wr, conj, tau, nf, pf, Entry.ext_iff,
              hj5, hd1, hd1.symm, he1, he1.symm, he2, he2.symm, hPc, hpfS, hnfS, hnfP, hpfSc,
              hSi, hSi.symm, hPi, hPi.symm, hScc, hScc.symm, hP_ne_c, hP_ne_c.symm,
              hPS, hPS.symm, hSc_ne_S, hSc_ne_S.symm, hpfP_ne_i, hpfP_ne_i.symm,
              hpfP_ne_c, hpfP_ne_c.symm, hnfSc_ne_i, hnfSc_ne_i.symm,
              hnfSc_ne_c, hnfSc_ne_c.symm, hic, hic.symm, hj1, hj2]
          · rw [swapStep_untouched hj1 hj2 hj4 hj3 (by rw [hPc]; exact hj3) hj5,
              conj_untouched h hj hj1 hj2 hj4 hj3 (by rw [hPc]; exact hj3) hj5]

/-- Swap with `choice` two backward steps before `i` and at least three
forward steps after `i`. -/
theorem swapConj_case9 {n : Nat} {b : Buf} (h : good n b) (hn : 2 ≤ n) {i c : Nat}
    (hi : i < n) (hc : c < n) (hic : i ≠ c)
    (hd1 : nf b i ≠ c) (he1 : nf b c ≠ i)
    (hd2 : nf b i ≠ pf b c) (he2 : pf b i = nf b c) :
    ∀ j < n, swapStep b i c j = conj b i c j := by
  have rt1 := (good_roundTrip h).1
  have rt2 := (good_roundTrip h).2
  have hb := good_bounded h
  have hSc : nf b c = pf b i := he2.symm
  have hnfP : nf b (pf b i) = i := rt2 i hi
  have hpfP : pf b (pf b i) = c := by have := rt1 c hc; rwa [← he2] at this
  have hpfS : pf b (nf b i) = i := rt1 i hi
  have hnfPc : nf b (pf b c) = c := rt2 c hc
  have hSi : nf b i ≠ i := no_self_loop h hn i hi
  have hPi : pf b i ≠ i := no_self_loop_prev h hn i hi
  have hPcc : pf b c ≠ c := no_self_loop_prev h hn c hc
  have hP_ne_c : pf b i ≠ c := by
    intro hh
    rw [hh] at hnfP
    exact he1 hnfP
  have hPc_ne_i : pf b c ≠ i := by
    intro hh
    rw [hh] at hnfPc
    exact hd1 hnfPc
  have hPc_ne_S : pf b c ≠ nf b i := fun hh => hd2 hh.symm
  have hPc_ne_P : pf b c ≠ pf b i := by
    intro hh
    rw [hh, hnfP] at hnfPc
    exact hic hnfPc
  have hSP : nf b i ≠ pf b i := by
    intro hh
    have hyx : nf b (nf b i) = i := by rw [hh]; exact hnfP
    exact not_two_cycle h hi hc rfl hyx hic.symm (fun hh2 => hd1 hh2.symm)
  have hnfS_ne_i : nf b (nf b i) ≠ i := by
    intro hh
    have := rt1 _ ((hb i hi).1)
    rw [hh] at this
    exact hSP this.symm
  have hnfS_ne_c : nf b (nf b i) ≠ c := by
    intro hh
    have := rt1 _ ((hb i hi).1)
    rw [hh] at this
    exact hPc_ne_S this
  have hpfPc_ne_i : pf b (pf b c) ≠ i := by
    intro hh
    have := rt2 _ ((hb c hc).2)
    rw [hh] at this
    exact hd2 this
  have hpfPc_ne_c : pf b (pf b c) ≠ c := by
    intro hh
    have := rt2 _ ((hb c hc).2)
    rw [hh, hSc] at this
    exact hPc_ne_P this.symm
  simp only [nf, pf] at hd1 he1 hd2 hSc hnfP hpfP hpfS hnfPc hSi hPi hPcc
  simp only [nf, pf] at hP_ne_c hPc_ne_i hPc_ne_S hPc_ne_P hSP
  simp only [nf, pf] at hnfS_ne_i hnfS_ne_c hpfPc_ne_i hpfPc_ne_c
  intro j hj
  rcases eq_or_ne j i with hj1 | hj1
  · simp [swapStep, setNextAt, setPrevAt, wr, conj, tau, nf, pf, Entry.ext_iff,
      hj1, hd1, hd1.symm, he1, he1.symm, hd2, hd2.symm, hSc, hnfP, hpfP, hpfS, hnfPc,
      hSi, hSi.symm, hPi, hPi.symm, hPcc, hPcc.symm, hP_ne_c, hP_ne_c.symm,
      hPc_ne_i, hPc_ne_i.symm, hPc_ne_S, hPc_ne_S.symm, hPc_ne_P, hPc_ne_P.symm,
      hSP, hSP.symm, hnfS_ne_i, hnfS_ne_i.symm, hnfS_ne_c, hnfS_ne_c.symm,
      hpfPc_ne_i, hpfPc_ne_i.symm, hpfPc_ne_c, hpfPc_ne_c.symm, hic, hic.symm]
  · rcases eq_or_ne j c with hj2 | hj2
    · simp [swapStep, setNextAt, setPrevAt, wr, conj, tau, nf, pf, Entry.ext_iff,
        hj2, hd1, hd1.symm, he1, he1.symm, hd2, hd2.symm, hSc, hnfP, hpfP, hpfS, hnfPc,
        hSi, hSi.symm, hPi, hPi.symm, hPcc, hPcc.symm, hP_ne_c, hP_ne_c.symm,
        hPc_ne_i, hPc_ne_i.symm, hPc_ne_S, hPc_ne_S.symm, hPc_ne_P, hPc_ne_P.symm,
        hSP, hSP.symm, hnfS_ne_i, hnfS_ne_i.symm, hnfS_ne_c, hnfS_ne_c.symm,
        hpfPc_ne_i, hpfPc_ne_i.symm, hpfPc_ne_c, hpfPc_ne_c.symm, hic, hic.symm]
    · rcases eq_or_ne j ((b i).next) with hj3 | hj3
      · simp [swapStep, setNextAt, setPrevAt, wr, conj, tau, nf, pf, Entry.ext_iff,
          hj3, hd1, hd1.symm, he1, he1.symm, hd2, hd2.symm, hSc, hnfP, hpfP, hpfS, hnfPc,
          hSi, hSi.symm, hPi, hPi.symm, hPcc, hPcc.symm, hP_ne_c, hP_ne_c.symm,
          hPc_ne_i, hPc_ne_i.symm, hPc_ne_S, hPc_ne_S.symm, hPc_ne_P, hPc_ne_P.symm,
          hSP, hSP.symm, hnfS_ne_i, hnfS_ne_i.symm, hnfS_ne_c, hnfS_ne_c.symm,
          hpfPc_ne_i, hpfPc_ne_i.symm, hpfPc_ne_c, hpfPc_ne_c.symm, hic, hic.symm,
          hj1, hj2]
      · rcases eq_or_ne j ((b i).prev) with hj4 | hj4
        · simp [swapStep, setNextAt, setPrevAt, wr, conj, tau, nf, pf, Entry.ext_iff,
            hj4, hd1, hd1.symm, he1, he1.symm, hd2, hd2.symm, hSc, hnfP, hpfP, hpfS, hnfPc,
            hSi, hSi.symm, hPi, hPi.symm, hPcc, hPcc.symm, hP_ne_c, hP_ne_c.symm,
            hPc_ne_i, hPc_ne_i.symm, hPc_ne_S, hPc_ne_S.symm, hPc_ne_P, hPc_ne_P.symm,
            hSP, hSP.symm, hnfS_ne_i, hnfS_ne_i.symm, hnfS_ne_c, hnfS_ne_c.symm,
            hpfPc_ne_i, hpfPc_ne_i.symm, hpfPc_ne_c, hpfPc_ne_c.symm, hic, hic.symm,
            hj1, hj2]
        · rcases eq_or_ne j ((b c).prev) with hj5 | hj5
          · simp [swapStep, setNextAt, setPrevAt, wr, conj, tau, nf, pf, Entry.ext_iff,
              hj5, hd1, hd1.symm, he1, he1.symm, hd2, hd2.symm, hSc, hnfP, hpfP, hpfS, hnfPc,
              hSi, hSi.symm, hPi, hPi.symm, hPcc, hPcc.symm, hP_ne_c, hP_ne_c.symm,
              hPc_ne_i, hPc_ne_i.symm, hPc_ne_S, hPc_ne_S.symm, hPc_ne_P, hPc_ne_P.symm,
              hSP, hSP.symm, hnfS_ne_i, hnfS_ne_i.symm, hnfS_ne_c, hnfS_ne_c.symm,
              hpfPc_ne_i, hpfPc_ne_i.symm, hpfPc_ne_c, hpfPc_ne_c.symm, hic, hic.symm,
              hj1, hj2]
          · rw [swapStep_untouched hj1 hj2 hj4 hj3 hj5 (by rw [hSc]; exact hj4),
              conj_untouched h hj hj1 hj2 hj4 hj3 hj5 (by rw [hSc]; exact hj4)]

/-- The generic swap: `i` and `choice` at mutual distance at least three
in both directions, no degeneracy fires. -/
theorem swapConj_case10 {n : Nat} {b : Buf} (h : good n b) (hn : 2 ≤ n) {i c : Nat}
    (hi : i < n) (hc : c < n) (hic : i ≠ c)
    (hd1 : nf b i ≠ c) (he1 : nf b c ≠ i)
    (hd2 : nf b i ≠ pf b c) (he2 : pf b i ≠ nf b c) :
    ∀ j < n, swapStep b i c j = conj b i c j := by
  have rt1 := (good_roundTrip h).1
  have rt2 := (good_roundTrip h).2
  have hb := good_bounded h
  have hpfS : pf b (nf b i) = i := rt1 i hi
  have hnfP : nf b (pf b i) = i := rt2 i hi
  have hpfSc : pf b (nf b c) = c := rt1 c hc
  have hnfPc : nf b (pf b c) = c := rt2 c hc
  have hSi : nf b i ≠ i := no_self_loop h hn i hi
  have hPi : pf b i ≠ i := no_self_loop_prev h hn i hi
  have hScc : nf b c ≠ c := no_self_loop h hn c hc
  have hPcc : pf b c ≠ c := no_self_loop_prev h hn c hc
  have hP_ne_c : pf b i ≠ c := by
    intro hh
    rw [hh] at hnfP
    exact he1 hnfP
  have hPc_ne_i : pf b c ≠ i := by
    intro hh
    rw [hh] at hnfPc
    exact hd1 hnfPc
  have hS_ne_Sc : nf b i ≠ nf b c := by
    intro hh
    have := hpfSc
    rw [← hh, hpfS] at this
    exact hic this
  have hP_ne_Pc : pf b i ≠ pf b c := by
    intro hh
    have := hnfPc
    rw [← hh, hnfP] at this
    exact hic this
  have hSP : nf b i ≠ pf b i := by
    intro hh
    have hyx : nf b (nf b i) = i := by rw [hh]; exact hnfP
    exact not_two_cycle h hi hc rfl hyx hic.symm (fun hh2 => hd1 hh2.symm)
  have hScPc : nf b c ≠ pf b c := by
    intro hh
    have hyx : nf b (nf b c) = c := by rw [hh]; exact hnfPc
    exact not_two_cycle h hc hi rfl hyx hic (fun hh2 => he1 hh2.symm)
  have hpfP_ne_i : pf b (pf b i) ≠ i := by
    intro hh
    have := rt2 _ ((hb i hi).2)
    rw [hh] at this
    exact hSP this
  have hpfP_ne_c : pf b (pf b i) ≠ c := by
    intro hh
    have := rt2 _ ((hb i hi).2)
    rw [hh] at this
    exact he2 this.symm
  have hnfS_ne_i : nf b (nf b i) ≠ i := by
    intro hh
    have := rt1 _ ((hb i hi).1)
    rw [hh] at this
    exact hSP this.symm
  have hnfS_ne_c : nf b (nf b i) ≠ c := by
    intro hh
    have := rt1 _ ((hb i hi).1)
    rw [hh] at this
    exact hd2 this.symm
  have hpfPc_ne_i : pf b (pf b c) ≠ i := by
    intro hh
    have := rt2 _ ((hb c hc).2)
    rw [hh] at this
    exact hd2 this
  have hpfPc_ne_c : pf b (pf b c) ≠ c := by
    intro hh
    have := rt2 _ ((hb c hc).2)
    rw [hh] at this
    exact hScPc this
  have hnfSc_ne_i : nf b (nf b c) ≠ i := by
    intro hh
    have := rt1 _ ((hb c hc).1)
    rw [hh] at this
    exact he2 this
  have hnfSc_ne_c : nf b (nf b c) ≠ c := by
    intro hh
    have := rt1 _ ((hb c hc).1)
    rw [hh] at this
    exact hScPc this.symm
  simp only [nf, pf] at hd1 he1 hd2 he2 hpfS hnfP hpfSc hnfPc hSi hPi hScc hPcc
  simp only [nf, pf] at hP_ne_c hPc_ne_i hS_ne_Sc hP_ne_Pc hSP hScPc
  simp only [nf, pf] at hpfP_ne_i hpfP_ne_c hnfS_ne_i hnfS_ne_c
  simp only [nf, pf] at hpfPc_ne_i hpfPc_ne_c hnfSc_ne_i hnfSc_ne_c
  intro j hj
  rcases eq_or_ne j i with hj1 | hj1
  · simp [swapStep, setNextAt, setPrevAt, wr, conj, tau, nf, pf, Entry.ext_iff,
      hj1, hd1, hd1.symm, he1, he1.symm, hd2, hd2.symm, he2, he2.symm,
      hpfS, hnfP, hpfSc, hnfPc, hSi, hSi.symm, hPi, hPi.symm, hScc, hScc.symm,
      hPcc, hPcc.symm, hP_ne_c, hP_ne_c.symm, hPc_ne_i, hPc_ne_i.symm,
      hS_ne_Sc, hS_ne_Sc.symm, hP_ne_Pc, hP_ne_Pc.symm, hSP, hSP.symm,
      hScPc, hScPc.symm, hpfP_ne_i, hpfP_ne_i.symm, hpfP_ne_c, hpfP_ne_c.symm,
      hnfS_ne_i, hnfS_ne_i.symm, hnfS_ne_c, hnfS_ne_c.symm,
      hpfPc_ne_i, hpfPc_ne_i.symm, hpfPc_ne_c, hpfPc_ne_c.symm,
      hnfSc_ne_i, hnfSc_ne_i.symm, hnfSc_ne_c, hnfSc_ne_c.symm, hic, hic.symm]
  · rcases eq_or_ne j c with hj2 | hj2
    · simp [swapStep, setNextAt, setPrevAt, wr, conj, tau, nf, pf, Entry.ext_iff,
        hj2, hd1, hd1.symm, he1, he1.symm, hd2, hd2.symm, he2, he2.symm,
        hpfS, hnfP, hpfSc, hnfPc, hSi, hSi.symm, hPi, hPi.symm, hScc, hScc.symm,
        hPcc, hPcc.symm, hP_ne_c, hP_ne_c.symm, hPc_ne_i, hPc_ne_i.symm,
        hS_ne_Sc, hS_ne_Sc.symm, hP_ne_Pc, hP_ne_Pc.symm, hSP, hSP.symm,
        hScPc, hScPc.symm, hpfP_ne_i, hpfP_ne_i.symm, hpfP_ne_c, hpfP_ne_c.symm,
        hnfS_ne_i, hnfS_ne_i.symm, hnfS_ne_c, hnfS_ne_c.symm,
        hpfPc_ne_i, hpfPc_ne_i.symm, hpfPc_ne_c, hpfPc_ne_c.symm,
        hnfSc_ne_i, hnfSc_ne_i.symm, hnfSc_ne_c, hnfSc_ne_c.symm, hic, hic.symm]
    · rcases eq_or_ne j ((b i).next) with hj3 | hj3
      · simp [swapStep, setNextAt, setPrevAt, wr, conj, tau, nf, pf, Entry.ext_iff,
          hj3, hd1, hd1.symm, he1, he1.symm, hd2, hd2.symm, he2, he2.symm,
          hpfS, hnfP, hpfSc, hnfPc, hSi, hSi.symm, hPi, hPi.symm, hScc, hScc.symm,
          hPcc, hPcc.symm, hP_ne_c, hP_ne_c.symm, hPc_ne_i, hPc_ne_i.symm,
          hS_ne_Sc, hS_ne_Sc.symm, hP_ne_Pc, hP_ne_Pc.symm, hSP, hSP.symm,
          hScPc, hScPc.symm, hpfP_ne_i, hpfP_ne_i.symm, hpfP_ne_c, hpfP_ne_c.symm,
          hnfS_ne_i, hnfS_ne_i.symm, hnfS_ne_c, hnfS_ne_c.symm,
          hpfPc_ne_i, hpfPc_ne_i.symm, hpfPc_ne_c, hpfPc_ne_c.symm,
          hnfSc_ne_i, hnfSc_ne_i.symm, hnfSc_ne_c, hnfSc_ne_c.symm, hic, hic.symm,
          hj1, hj2]
      · rcases eq_or_ne j ((b i).prev) with hj4 | hj4
        · simp [swapStep, setNextAt, setPrevAt, wr, conj, tau, nf, pf, Entry.ext_iff,
            hj4, hd1, hd1.symm, he1, he1.symm, hd2, hd2.symm, he2, he2.symm,
            hpfS, hnfP, hpfSc, hnfPc, hSi, hSi.symm, hPi, hPi.symm, hScc, hScc.symm,
            hPcc, hPcc.symm, hP_ne_c, hP_ne_c.symm, hPc_ne_i, hPc_ne_i.symm,
            hS_ne_Sc, hS_ne_Sc.symm, hP_ne_Pc, hP_ne_Pc.symm, hSP, hSP.symm,
            hScPc, hScPc.symm, hpfP_ne_i, hpfP_ne_i.symm, hpfP_ne_c, hpfP_ne_c.symm,
            hnfS_ne_i, hnfS_ne_i.symm, hnfS_ne_c, hnfS_ne_c.symm,
            hpfPc_ne_i, hpfPc_ne_i.symm, hpfPc_ne_c, hpfPc_ne_c.symm,
            hnfSc_ne_i, hnfSc_ne_i.symm, hnfSc_ne_c, hnfSc_ne_c.symm, hic, hic.symm,
            hj1, hj2]
        · rcases eq_or_ne j ((b c).next) with hj5 | hj5
          · simp [swapStep, setNextAt, setPrevAt, wr, conj, tau, nf, pf, Entry.ext_iff,
              hj5, hd1, hd1.symm, he1, he1.symm, hd2, hd2.symm, he2, he2.symm,
              hpfS, hnfP, hpfSc, hnfPc, hSi, hSi.symm, hPi, hPi.symm, hScc, hScc.symm,
              hPcc, hPcc.symm, hP_ne_c, hP_ne_c.symm, hPc_ne_i, hPc_ne_i.symm,
              hS_ne_Sc, hS_ne_Sc.symm, hP_ne_Pc, hP_ne_Pc.symm, hSP, hSP.symm,
              hScPc, hScPc.symm, hpfP_ne_i, hpfP_ne_i.symm, hpfP_ne_c, hpfP_ne_c.symm,
              hnfS_ne_i, hnfS_ne_i.symm, hnfS_ne_c, hnfS_ne_c.symm,
              hpfPc_ne_i, hpfPc_ne_i.symm, hpfPc_ne_c, hpfPc_ne_c.symm,
              hnfSc_ne_i, hnfSc_ne_i.symm, hnfSc_ne_c, hnfSc_ne_c.symm, hic, hic.symm,
              hj1, hj2]
          · rcases eq_or_ne j ((b c).prev) with hj6 | hj6
            · simp [swapStep, setNextAt, setPrevAt, wr, conj, tau, nf, pf, Entry.ext_iff,
                hj6, hd1, hd1.symm, he1, he1.symm, hd2, hd2.symm, he2, he2.symm,
                hpfS, hnfP, hpfSc, hnfPc, hSi, hSi.symm, hPi, hPi.symm, hScc, hScc.symm,
                hPcc, hPcc.symm, hP_ne_c, hP_ne_c.symm, hPc_ne_i, hPc_ne_i.symm,
                hS_ne_Sc, hS_ne_Sc.symm, hP_ne_Pc, hP_ne_Pc.symm, hSP, hSP.symm,
                hScPc, hScPc.symm, hpfP_ne_i, hpfP_ne_i.symm, hpfP_ne_c, hpfP_ne_c.symm,
                hnfS_ne_i, hnfS_ne_i.symm, hnfS_ne_c, hnfS_ne_c.symm,
                hpfPc_ne_i, hpfPc_ne_i.symm, hpfPc_ne_c, hpfPc_ne_c.symm,
                hnfSc_ne_i, hnfSc_ne_i.symm, hnfSc_ne_c, hnfSc_ne_c.symm, hic, hic.symm,
                hj1, hj2]
            · rw [swapStep_untouched hj1 hj2 hj4 hj3 hj6 hj5,
                conj_untouched h hj hj1 hj2 hj4 hj3 hj6 hj5]

/-- The draw `choice = rand() % (num_entries - i) + i` (line 86), with `rnd i` the
value of the `i`-th call to `rand()`. -/
def choiceOf (n : Nat) (rnd : Nat → Nat) (i : Nat) : Nat := rnd i % (n - i) + i

/-- The shuffle loop (lines 85-134): `n - 1` swap steps. -/
def shuffle (n : Nat) (rnd : Nat → Nat) (b : Buf) : Buf :=
  (List.range (n - 1)).foldl (fun b i => swapStep b i (choiceOf n rnd i)) b

/-- The whole random-chain construction (lines 74-135): circular linking
followed by the shuffle. -/
def buildChain (n : Nat) (rnd : Nat → Nat) (b0 : Buf) : Buf :=
  shuffle n rnd (initLinks n b0)

/-- The state of the linked list after the first `m` swap steps of the
shuffle loop. -/
def shufflePrefix (n : Nat) (rnd : Nat → Nat) (b : Buf) (m : Nat) : Buf :=
  (List.range m).foldl (fun b i => swapStep b i (choiceOf n rnd i)) b

theorem shuffle_eq_shufflePrefix (n : Nat) (rnd : Nat → Nat) (b : Buf) :
    shuffle n rnd b = shufflePrefix n rnd b (n - 1) := rfl

/-- On a good chain, one swap step of the shuffle acts exactly as the
relabelling of the buffer by the transposition `(i choice)`. -/
theorem swapStep_eq_conj {n : Nat} {b : Buf} (h : good n b) (hn : 2 ≤ n)
    {i c : Nat} (hi : i < n) (hc : c < n) :
    ∀ j < n, swapStep b i c j = conj b i c j := by
  rcases eq_or_ne i c with hic | hic
  · subst hic
    exact swapConj_case1 h hn hi
  · by_cases hd1 : nf b i = c
    · by_cases he1 : nf b c = i
      · exact swapConj_case2 h hi hc hic hd1 he1
      · by_cases he2 : pf b i = nf b c
        · exact swapConj_case3 h hn hi hc hic hd1 he1 he2
        · exact swapConj_case4 h hn hi hc hic hd1 he1 he2
    · by_cases he1 : nf b c = i
      · by_cases hd2 : nf b i = pf b c
        · exact swapConj_case5 h hn hi hc hic hd1 he1 hd2
        · exact swapConj_case6 h hn hi hc hic hd1 he1 hd2
      · by_cases hd2 : nf b i = pf b c
        · by_cases he2 : pf b i = nf b c
          · exact swapConj_case7 h hn hi hc hic hd1 he1 hd2 he2
          · exact swapConj_case8 h hn hi hc hic hd1 he1 hd2 he2
        · by_cases he2 : pf b i = nf b c
          · exact swapConj_case9 h hn hi hc hic hd1 he1 hd2 he2
          · exact swapConj_case10 h hn hi hc hic hd1 he1 hd2 he2

/-- The chain invariant survives one swap step. -/
theorem good_swapStep {n : Nat} {b : Buf} (h : good n b) (hn : 2 ≤ n)
    {i c : Nat} (hi : i < n) (hc : c < n) : good n (swapStep b i c) :=
  good_congr (fun j hj => (swapStep_eq_conj h hn hi hc j hj).symm)
    (good_conj h hi hc)

theorem choiceOf_lt {n : Nat} (rnd : Nat → Nat) {i : Nat} (hi : i < n - 1) :
    choiceOf n rnd i < n := by
  unfold choiceOf
  have h1 : rnd i % (n - i) < n - i := Nat.mod_lt _ (by omega)
  omega

/-- The chain invariant holds after every prefix of the shuffle loop. -/
theorem good_shufflePrefix {n : Nat} (hn : 2 ≤ n) (rnd : Nat → Nat)
    {b : Buf} (h : good n b) :
    ∀ m ≤ n - 1, good n (shufflePrefix n rnd b m) := by
  intro m
  induction m with
  | zero => intro _; exact h
  | succ m ih =>
      intro hm
      unfold shufflePrefix
      rw [List.range_succ, List.foldl_append, List.foldl_cons, List.foldl_nil]
      exact good_swapStep (ih (by omega)) hn (by omega)
        (choiceOf_lt rnd (by omega))

/-- The chain invariant holds for the fully shuffled chain. -/
theorem good_buildChain {n : Nat} (hn : 2 ≤ n) (rnd : Nat → Nat) (b0 : Buf) :
    good n (buildChain n rnd b0) := by
  unfold buildChain
  rw [shuffle_eq_shufflePrefix]
  exact good_shufflePrefix hn rnd (good_initLinks hn b0) (n - 1) le_rfl

/-! ## Sequential traversal

`thrasher.c` lines 138-144:
```
for (unsigned long i = 0; i < iterations || argc <= 2; i++) {
    for (unsigned long i = 0; i < (L3_SIZE * 4) / LINE_SIZE; i++) {
        buffer[i].data++;
    }
}
```
`buffer` has element type `struct entry`, whose `aligned(LINE_SIZE)`
attribute makes `sizeof(struct entry) = LINE_SIZE`, so `buffer[i]` is the
entry at byte offset `i * LINE_SIZE`. -/

def LINE_SIZE : Nat := 64

def L3_SIZE : Nat := 12 * 1024 * 1024

/-- Inner loop bound `(L3_SIZE * 4) / LINE_SIZE`. -/
def seqLines : Nat := (L3_SIZE * 4) / LINE_SIZE

/-- Entry count of the random chain, `(L3_SIZE * 4) / sizeof(struct entry)`
(the aligned struct fills one cache line). -/
def numEntries : Nat := (L3_SIZE * 4) / LINE_SIZE

/-- One inner sweep: `buffer[i].data++` for `i = 0 .. count-1`
in ascending index order. -/
def seqSweep (count : Nat) (b : Buf) : Buf :=
  (List.range count).foldl (fun b i => wr b i { b i with data := (b i).data + 1 }) b

/-- The outer loop run for a known number of passes. -/
def seqRun (count passes : Nat) (b : Buf) : Buf := (seqSweep count)^[passes] b

/-- Field offsets of `struct entry` for pointer size `ps` bytes: `prev` at
0, `next` at `ps`, `data` right after the two pointers. -/
def entry_data_offset (ps : Nat) : Nat := 2 * ps

/-- The byte offset actually incremented inside visited line `i`
(the first byte of the `data` field of the entry occupying that line). -/
def seqTargetByte (ps i : Nat) : Nat := i * LINE_SIZE + entry_data_offset ps

/-- The line-aligned byte offsets visited by one sequential pass over a
region of `sz` bytes with line size `ls`. -/
def seqPassOffsets (sz ls : Nat) : List Nat :=
  (List.range (sz / ls)).map (fun i => i * ls)

theorem seqSweep_spec (count : Nat) (b : Buf) :
    ∀ m ≤ count, ∀ j,
      ((List.range m).foldl (fun b i => wr b i { b i with data := (b i).data + 1 }) b) j
        = if j < m then { b j with data := (b j).data + 1 } else b j := by
  intro m
  induction m with
  | zero => intro _ j; simp
  | succ m ih =>
      intro hm j
      rw [List.range_succ, List.foldl_append, List.foldl_cons, List.foldl_nil]
      by_cases hj : j = m
      · subst hj
        rw [wr_same, ih (by omega) j, if_neg (by omega), if_pos (by omega)]
      · rw [wr_other _ _ _ hj, ih (by omega) j]
        by_cases hj2 : j < m
        · rw [if_pos hj2, if_pos (by omega)]
        · rw [if_neg hj2, if_neg (by omega)]

theorem seqSweep_at (count : Nat) (b : Buf) (j : Nat) :
    seqSweep count b j
      = if j < count then { b j with data := (b j).data + 1 } else b j :=
  seqSweep_spec count b count le_rfl j

/-- After `passes` outer iterations each of the `count` targets has been
incremented exactly `passes` times, and nothing else changed. -/
theorem seqRun_at (count : Nat) (passes : Nat) (b : Buf) (j : Nat) :
    seqRun count passes b j
      = if j < count then { b j with data := (b j).data + passes } else b j := by
  induction passes generalizing b with
  | zero =>
      by_cases hj : j < count <;> simp [seqRun, hj]
  | succ p ih =>
      unfold seqRun
      rw [Function.iterate_succ_apply]
      have := ih (seqSweep count b)
      unfold seqRun at this
      rw [this, seqSweep_at]
      by_cases hj : j < count
      · rw [if_pos hj, if_pos hj, if_pos hj]
        simp
        omega
      · rw [if_neg hj, if_neg hj, if_neg hj]

theorem seqPassOffsets_length (sz ls : Nat) :
    (seqPassOffsets sz ls).length = sz / ls := by
  simp [seqPassOffsets]

theorem seqPassOffsets_sorted (sz ls : Nat) (hls : 0 < ls) :
    List.Pairwise (· < ·) (seqPassOffsets sz ls) := by
  unfold seqPassOffsets
  refine List.Pairwise.map _ ?_ (List.pairwise_lt_range _)
  intro a b hab
  exact (Nat.mul_lt_mul_right hls).mpr hab

theorem seqPassOffsets_nodup (sz ls : Nat) (hls : 0 < ls) :
    (seqPassOffsets sz ls).Nodup :=
  (seqPassOffsets_sorted sz ls hls).imp Nat.ne_of_lt

theorem seqPassOffsets_mem (sz ls : Nat) (hls : 0 < ls) (hdvd : ls ∣ sz) :
    ∀ o ∈ seqPassOffsets sz ls, ls ∣ o ∧ o < sz := by
  intro o ho
  simp only [seqPassOffsets, List.mem_map, List.mem_range] at ho
  obtain ⟨i, hi, rfl⟩ := ho
  refine ⟨⟨i, Nat.mul_comm i ls⟩, ?_⟩
  obtain ⟨q, rfl⟩ := hdvd
  rw [Nat.mul_div_cancel_left q hls] at hi
  calc i * ls < q * ls := (Nat.mul_lt_mul_right hls).mpr hi
  _ = ls * q := Nat.mul_comm q ls

/-- Successive visited offsets differ by exactly the line size. -/
theorem seqPassOffsets_stride (sz ls : Nat) :
    List.Chain' (fun a b => b = a + ls) (seqPassOffsets sz ls) := by
  unfold seqPassOffsets
  rw [List.chain'_map]
  rcases hq : sz / ls with _ | m
  · simp
  · rw [List.chain'_range_succ]
    intro k _
    rw [Nat.succ_mul]

/-! ## Random traversal

`thrasher.c` lines 145-153:
```
struct entry* curr = buffer;
for (unsigned long i = 0; i < iterations || argc <= 2; i++) {
    do {
        curr->data++;
        curr = curr->next;
    } while (curr != (void*)buffer);
}
```
-/

/-- The increment `curr->data++`. -/
def incr (b : Buf) (j : Nat) : Buf := wr b j { b j with data := (b j).data + 1 }

theorem nf_incr (b : Buf) (j k : Nat) : nf (incr b j) k = nf b k := by
  by_cases h : k = j <;> simp [incr, wr, nf, h]

/-- The do-while body repeated: mutate the current entry, advance through
its forward link, check against `start` after the step.  `fuel` bounds the
number of body executions (the C loop itself is unbounded); `none` means
the fuel ran out before the cursor returned. -/
def doWhilePass (start : Nat) : Nat → Buf → Nat → Option Buf
  | 0, _, _ => none
  | fuel + 1, b, curr =>
      if nf (incr b curr) curr = start then some (incr b curr)
      else doWhilePass start fuel (incr b curr) (nf (incr b curr) curr)

/-- The slots visited by the same do-while, in visiting order. -/
def doWhileVisits (start : Nat) : Nat → Buf → Nat → Option (List Nat)
  | 0, _, _ => none
  | fuel + 1, b, curr =>
      if nf b curr = start then some [curr]
      else (doWhileVisits start fuel b (nf b curr)).map (curr :: ·)

theorem foldl_incr_nf (l : List Nat) (b : Buf) (j : Nat) :
    nf (l.foldl incr b) j = nf b j := by
  induction l generalizing b with
  | nil => rfl
  | cons a t ih => rw [List.foldl_cons, ih, nf_incr]

theorem foldl_incr_at (l : List Nat) (b : Buf) (j : Nat) (hnd : l.Nodup) :
    (l.foldl incr b) j
      = if j ∈ l then { b j with data := (b j).data + 1 } else b j := by
  induction l generalizing b with
  | nil => simp
  | cons a t ih =>
      rw [List.foldl_cons, ih _ (List.Nodup.of_cons hnd)]
      by_cases hjt : j ∈ t
      · have hja : j ≠ a := by
          intro hh
          subst hh
          exact (List.nodup_cons.mp hnd).1 hjt
        rw [if_pos hjt, if_pos (List.mem_cons_of_mem a hjt)]
        simp [incr, wr, hja]
      · rw [if_neg hjt]
        by_cases hja : j = a
        · subst hja
          rw [if_pos (List.mem_cons_self j t)]
          simp [incr, wr]
        · rw [if_neg (by simp [hja, hjt])]
          simp [incr, wr, hja]

theorem iterate_index_congr (f : Nat → Nat) {a b : Nat} (h : a = b) (x : Nat) :
    f^[a] x = f^[b] x := by rw [h]

/-- Visit lists only depend on the forward links. -/
theorem doWhileVisits_congr (start : Nat) {b1 b2 : Buf}
    (hnf : ∀ j, nf b1 j = nf b2 j) :
    ∀ fuel curr, doWhileVisits start fuel b1 curr = doWhileVisits start fuel b2 curr := by
  intro fuel
  induction fuel with
  | zero => intro curr; rfl
  | succ fuel ih =>
      intro curr
      unfold doWhileVisits
      simp only [hnf curr, ih]

theorem map_range_iterate_succ (f : Nat → Nat) (x : Nat) {n d : Nat}
    (hdn : d + 1 ≤ n) :
    (List.range (d + 1)).map (fun k => f^[n - (d + 1) + k] x)
      = f^[n - (d + 1)] x :: (List.range d).map (fun k => f^[n - d + k] x) := by
  rw [List.range_succ_eq_map, List.map_cons, List.map_map]
  simp only [List.cons.injEq]
  constructor
  · exact iterate_index_congr f (show n - (d + 1) + 0 = n - (d + 1) by omega) x
  · apply List.map_congr_left
    intro k _
    simp only [Function.comp_apply]
    exact iterate_index_congr f (show n - (d + 1) + (k + 1) = n - d + k by omega) x

/-- The walk of the do-while along a single cycle, positions expressed as
iterates of the forward-link map: visit list. -/
theorem doWhileVisits_spec {n : Nat} {b : Buf}
    (hcy : singleCycle n (nf b)) {s : Nat} (hs : s < n) :
    ∀ d, 1 ≤ d → d ≤ n → ∀ fuel, d ≤ fuel →
      doWhileVisits s fuel b ((nf b)^[n - d] s)
        = some ((List.range d).map (fun k => (nf b)^[n - d + k] s)) := by
  intro d
  induction d with
  | zero => omega
  | succ d ih =>
      intro _ hdn fuel hfuel
      obtain ⟨fl, rfl⟩ : ∃ fl, fuel = fl + 1 := ⟨fuel - 1, by omega⟩
      unfold doWhileVisits
      have hstep : nf b ((nf b)^[n - (d + 1)] s) = (nf b)^[n - d] s := by
        rw [← Function.iterate_succ_apply' (nf b)]
        congr 1
        omega
      by_cases hd0 : d = 0
      · subst hd0
        have hret : nf b ((nf b)^[n - 1] s) = s := by
          rw [hstep]
          exact iterate_index_congr (nf b) (by omega) s |>.trans (hcy.1 s hs)
        rw [if_pos hret]
        rw [List.range_succ, List.range_zero, List.nil_append, List.map_cons, List.map_nil]
        simp
      · have hnret : nf b ((nf b)^[n - (d + 1)] s) ≠ s := by
          rw [hstep]
          exact hcy.2 s hs (n - d) (by omega) (by omega)
        have hrec := ih (show 1 ≤ d by omega) (show d ≤ n by omega) fl
          (show d ≤ fl by omega)
        rw [if_neg hnret, hstep, hrec]
        rw [Option.map_some', map_range_iterate_succ (nf b) s (show d + 1 ≤ n by omega)]

/-- The walk of the do-while along a single cycle: final buffer as a fold
of increments over the visit list. -/
theorem doWhilePass_spec {n : Nat} {b : Buf}
    (hcy : singleCycle n (nf b)) {s : Nat} (hs : s < n) :
    ∀ d, 1 ≤ d → d ≤ n → ∀ fuel, d ≤ fuel → ∀ bc : Buf,
      (∀ j, nf bc j = nf b j) →
      doWhilePass s fuel bc ((nf b)^[n - d] s)
        = some ((((List.range d).map (fun k => (nf b)^[n - d + k] s))).foldl incr bc) := by
  intro d
  induction d with
  | zero => omega
  | succ d ih =>
      intro _ hdn fuel hfuel bc hbc
      obtain ⟨fl, rfl⟩ : ∃ fl, fuel = fl + 1 := ⟨fuel - 1, by omega⟩
      unfold doWhilePass
      have hcur : nf (incr bc ((nf b)^[n - (d + 1)] s)) ((nf b)^[n - (d + 1)] s)
          = (nf b)^[n - d] s := by
        rw [nf_incr, hbc, ← Function.iterate_succ_apply' (nf b)]
        exact iterate_index_congr (nf b) (by omega) s
      rw [hcur]
      by_cases hd0 : d = 0
      · subst hd0
        have hret : (nf b)^[n - 0] s = s :=
          (iterate_index_congr (nf b) (by omega) s).trans (hcy.1 s hs)
        rw [if_pos hret, List.range_succ, List.range_zero, List.nil_append,
          List.map_cons, List.map_nil, List.foldl_cons, List.foldl_nil]
        simp
      · have hnret : (nf b)^[n - d] s ≠ s :=
          hcy.2 s hs (n - d) (by omega) (by omega)
        have hrec := ih (show 1 ≤ d by omega) (show d ≤ n by omega) fl
          (show d ≤ fl by omega) (incr bc ((nf b)^[n - (d + 1)] s))
          (fun j => by rw [nf_incr, hbc])
        rw [if_neg hnret, hrec,
          map_range_iterate_succ (nf b) s (show d + 1 ≤ n by omega),
          List.foldl_cons]

/-- The first `n` iterates from a live start form a duplicate-free list. -/
theorem iterates_nodup {n : Nat} {f : Nat → Nat}
    (hcy : singleCycle n f) {s : Nat} (hs : s < n) :
    ((List.range n).map (fun k => f^[k] s)).Nodup := by
  refine List.Nodup.map_on ?_ (List.nodup_range n)
  intro a ha b' hb' heq
  rw [List.mem_range] at ha hb'
  exact cycle_iterate_distinct hcy hs a ha b' hb' heq

theorem iterates_mem {n : Nat} {f : Nat → Nat} (hb : ∀ j < n, f j < n)
    (hcy : singleCycle n f) {s : Nat} (hs : s < n) (j : Nat) :
    j ∈ (List.range n).map (fun k => f^[k] s) ↔ j < n := by
  constructor
  · intro hj
    simp only [List.mem_map, List.mem_range] at hj
    obtain ⟨k, _, rfl⟩ := hj
    exact iterate_lt_fun hb k s hs
  · intro hj
    obtain ⟨k, hk, hke⟩ := cycle_reach hb hcy hs hj
    simp only [List.mem_map, List.mem_range]
    exact ⟨k, hk, hke⟩

/-! ## Command line, allocation and run loop

`thrasher.c` lines 33-71 and 136-166.  Machine `long` has `w` bits;
`unsigned long` values are naturals below `2 ^ w`. -/

def longMax (w : Nat) : Int := 2 ^ (w - 1) - 1

def longMin (w : Nat) : Int := -(2 ^ (w - 1))

/-- Conversion of a signed `long` value to `unsigned long`
(reduction modulo `2 ^ w`). -/
def toULong (w : Nat) (v : Int) : Nat := (v % (2 ^ w : Int)).toNat

def isDigit (ch : Char) : Bool := decide ('0' ≤ ch) && decide (ch ≤ '9')

def digitsVal (ds : List Char) : Nat :=
  ds.foldl (fun acc ch => acc * 10 + (ch.toNat - '0'.toNat)) 0

/-- Modelled from the spec: the C library collaborator `strtol(s, &end, 10)`
(not part of this repository).  It skips leading white space, consumes an
optional sign and the longest run of decimal digits, returns the value
clamped to `[LONG_MIN, LONG_MAX]` on overflow together with the unconsumed
tail (`end`); when no digits are consumed it returns 0 and leaves `end` at
the start of the string. -/
def strtol10 (w : Nat) (s : List Char) : Int × List Char :=
  match s.dropWhile (fun ch => ch = ' ') with
  | '-' :: r =>
      if r.takeWhile isDigit = [] then (0, s)
      else (max (longMin w) (-(Int.ofNat (digitsVal (r.takeWhile isDigit)))),
        r.dropWhile isDigit)
  | '+' :: r =>
      if r.takeWhile isDigit = [] then (0, s)
      else (min (longMax w) (Int.ofNat (digitsVal (r.takeWhile isDigit))),
        r.dropWhile isDigit)
  | r =>
      if r.takeWhile isDigit = [] then (0, s)
      else (min (longMax w) (Int.ofNat (digitsVal (r.takeWhile isDigit))),
        r.dropWhile isDigit)

/-- The iteration-argument validation of lines 42-49:
`iterations = strtol(argv[2], &status, 10)` into an `unsigned long`,
rejected (`return 1`) when the wrapped value equals `(unsigned long)LONG_MIN`
or `(unsigned long)LONG_MAX` or when `status[0] != '\0'`. -/
def parseIters (w : Nat) (arg : List Char) : Option Nat :=
  if toULong w (strtol10 w arg).1 = toULong w (longMin w)
      ∨ toULong w (strtol10 w arg).1 = toULong w (longMax w)
      ∨ (strtol10 w arg).2 ≠ [] then none
  else some (toULong w (strtol10 w arg).1)

def helpLong : List Char := ['-', '-', 'h', 'e', 'l', 'p']

def helpShort : List Char := ['-', 'h']

/-- The guard of both traversal loops (lines 140 and 148):
`i < iterations || argc <= 2`. -/
def loopGuard (argc its i : Nat) : Bool := decide (i < its) || decide (argc ≤ 2)

/-- The completion line of lines 157-163, with `total_kbytes =
(L3_SIZE/1024)*4*iterations`, the GiB unit chosen when
`total_kbytes/(1<<20) >= 1`, and the elapsed milliseconds `end - start`. -/
structure Report where
  kbytes : Nat
  gib : Bool
  ms : Nat
  deriving DecidableEq

/-- Observable outcome of one program run. -/
inductive RunResult where
  | helpExit
  | parseError
  | allocError
  | forever
  | done (r : Report)
  deriving DecidableEq

/-- Process exit status (`none` for the non-terminating run). -/
def exitCode : RunResult → Option Nat
  | .helpExit => some 1
  | .parseError => some 1
  | .allocError => some 2
  | .forever => none
  | .done _ => some 0

/-- Whether `malloc` was reached on this path. -/
def allocAttempted : RunResult → Bool
  | .helpExit => false
  | .parseError => false
  | _ => true

/-- Whether a diagnostic message was written to standard error. -/
def stderrDiag : RunResult → Bool
  | .helpExit => true
  | .parseError => true
  | .allocError => true
  | _ => false

/-- Whether control reached the traversal section. -/
def traversalRan : RunResult → Bool
  | .forever => true
  | .done _ => true
  | _ => false

/-- The whole `main` control flow: `argv1`/`argv2` are the command-line
arguments (absent ⇒ smaller `argc`), `mallocOk` tells whether the one
`malloc` succeeds, `t0`/`t1` are the two `get_ms()` samples. -/
def runModel (w : Nat) (argv1 argv2 : Option (List Char)) (mallocOk : Bool)
    (t0 t1 : Nat) : RunResult :=
  match argv1 with
  | none => if mallocOk then .forever else .allocError
  | some a1 =>
      if a1 = helpLong ∨ a1 = helpShort then .helpExit
      else
        match argv2 with
        | none => if mallocOk then .forever else .allocError
        | some a2 =>
            match parseIters w a2 with
            | none => .parseError
            | some its =>
                if mallocOk then
                  .done { kbytes := (L3_SIZE / 1024) * 4 * its,
                          gib := decide (1 ≤ (L3_SIZE / 1024) * 4 * its / 2 ^ 20),
                          ms := t1 - t0 }
                else .allocError

/-! ## The pseudo-random stream

Modelled from the spec: the C library `rand()` collaborator (not part of
this repository).  `rand` is a deterministic recurrence on a hidden state;
the program never calls `srand`, so the state starts from the C default
seed 1 and the whole call sequence is fixed.  We use the reference
recurrence of the C standard; only its determinism matters to the claims. -/

def randNext (st : Nat) : Nat := (st * 1103515245 + 12345) % 2 ^ 31

/-- Value of the `k`-th call to `rand()` after seeding with `seed`. -/
def randStream (seed : Nat) (k : Nat) : Nat := randNext^[k + 1] seed / 65536 % 32768

/-- The program never calls `srand`: the default seed is 1. -/
def defaultSeed : Nat := 1

/-- The `n - 1` shuffle choices drawn by the program. -/
def programChoices (n : Nat) : List Nat :=
  (List.range (n - 1)).map (choiceOf n (randStream defaultSeed))

/-- The chain as built by a program run whose buffer started as `b0`. -/
def programChain (n : Nat) (b0 : Buf) : Buf :=
  buildChain n (randStream defaultSeed) b0

/-- Control-flow reduction for a run with both arguments present and no
help flag. -/
theorem runModel_both_args (w : Nat) (a1 a2 : List Char) (mOk : Bool)
    (t0 t1 : Nat) (hna : ¬ (a1 = helpLong ∨ a1 = helpShort)) :
    runModel w (some a1) (some a2) mOk t0 t1
      = match parseIters w a2 with
        | none => .parseError
        | some its =>
            if mOk then
              .done { kbytes := (L3_SIZE / 1024) * 4 * its,
                      gib := decide (1 ≤ (L3_SIZE / 1024) * 4 * its / 2 ^ 20),
                      ms := t1 - t0 }
            else .allocError := by
  unfold runModel
  exact if_neg hna

/-- Control-flow reduction for a run with the iteration count absent. -/
theorem runModel_one_arg (w : Nat) (a1 : List Char) (mOk : Bool)
    (t0 t1 : Nat) (hna : ¬ (a1 = helpLong ∨ a1 = helpShort)) :
    runModel w (some a1) none mOk t0 t1
      = if mOk then .forever else .allocError := by
  unfold runModel
  exact if_neg hna

/-! ## Determinism of the constructed chain -/

/-- Two good buffers with equal links stay link-equal through every prefix
of the shuffle (the data words may differ — they are uninitialised
`malloc` memory — but the traversal order is a function of the choices
alone). -/
theorem shufflePrefix_links_eq {n : Nat} (hn : 2 ≤ n) (rnd : Nat → Nat)
    {bA bB : Buf} (hA : good n bA) (hB : good n bB)
    (hl : ∀ j < n, nf bA j = nf bB j ∧ pf bA j = pf bB j) :
    ∀ m ≤ n - 1, ∀ j < n,
      nf (shufflePrefix n rnd bA m) j = nf (shufflePrefix n rnd bB m) j
      ∧ pf (shufflePrefix n rnd bA m) j = pf (shufflePrefix n rnd bB m) j := by
  intro m
  induction m with
  | zero => intro _ j hj; exact hl j hj
  | succ m ih =>
      intro hm j hj
      have hgA := good_shufflePrefix hn rnd hA m (by omega)
      have hgB := good_shufflePrefix hn rnd hB m (by omega)
      have hmn : m < n := by omega
      have hcn : choiceOf n rnd m < n := choiceOf_lt rnd (by omega)
      have hstep : ∀ b : Buf,
          shufflePrefix n rnd b (m + 1)
            = swapStep (shufflePrefix n rnd b m) m (choiceOf n rnd m) := by
        intro b
        unfold shufflePrefix
        rw [List.range_succ, List.foldl_append, List.foldl_cons, List.foldl_nil]
      rw [hstep, hstep]
      have hτ : tau m (choiceOf n rnd m) j < n := tau_lt hmn hcn hj
      have heqA := swapStep_eq_conj hgA hn hmn hcn j hj
      have heqB := swapStep_eq_conj hgB hn hmn hcn j hj
      have ihτ := ih (by omega) _ hτ
      constructor
      · show (swapStep (shufflePrefix n rnd bA m) m (choiceOf n rnd m) j).next
          = (swapStep (shufflePrefix n rnd bB m) m (choiceOf n rnd m) j).next
        rw [heqA, heqB]
        show tau m (choiceOf n rnd m) (nf (shufflePrefix n rnd bA m)
            (tau m (choiceOf n rnd m) j))
          = tau m (choiceOf n rnd m) (nf (shufflePrefix n rnd bB m)
            (tau m (choiceOf n rnd m) j))
        rw [ihτ.1]
      · show (swapStep (shufflePrefix n rnd bA m) m (choiceOf n rnd m) j).prev
          = (swapStep (shufflePrefix n rnd bB m) m (choiceOf n rnd m) j).prev
        rw [heqA, heqB]
        show tau m (choiceOf n rnd m) (pf (shufflePrefix n rnd bA m)
            (tau m (choiceOf n rnd m) j))
          = tau m (choiceOf n rnd m) (pf (shufflePrefix n rnd bB m)
            (tau m (choiceOf n rnd m) j))
        rw [ihτ.2]

/-- The links of the fully built chain do not depend on the initial buffer
contents. -/
theorem buildChain_links_deterministic {n : Nat} (hn : 2 ≤ n)
    (rnd : Nat → Nat) (b1 b2 : Buf) :
    ∀ j < n, nf (buildChain n rnd b1) j = nf (buildChain n rnd b2) j
      ∧ pf (buildChain n rnd b1) j = pf (buildChain n rnd b2) j := by
  intro j hj
  have hinit : ∀ j < n, nf (initLinks n b1) j = nf (initLinks n b2) j
      ∧ pf (initLinks n b1) j = pf (initLinks n b2) j := by
    intro j hj
    rw [nf_initLinks hn b1 j hj, nf_initLinks hn b2 j hj,
      pf_initLinks hn b1 j hj, pf_initLinks hn b2 j hj]
    exact ⟨rfl, rfl⟩
  exact shufflePrefix_links_eq hn rnd (good_initLinks hn b1) (good_initLinks hn b2)
    hinit (n - 1) le_rfl j hj

/-! ## Claim theorems -/

/-- An arbitrary concrete initial buffer (malloc returns uninitialised
memory; any contents will do). -/
def zeroBuf : Buf := fun _ => { prev := 0, next := 0, data := 0 }

/-- C1: for every entry count `n ≥ 2`, after the initial circular linking
and all `n-1` shuffle swap steps complete, following forward links exactly
`n` times from any start returns to the start, the first `n` cursor
positions are pairwise distinct, and every entry is visited — a single
cycle with no self-loops and no sub-cycles. -/
theorem C1_chain_single_cycle {n : Nat} (hn : 2 ≤ n) (rnd : Nat → Nat) (b0 : Buf)
    {s : Nat} (hs : s < n) :
    (nf (buildChain n rnd b0))^[n] s = s ∧
    (∀ k1 < n, ∀ k2 < n, k1 ≠ k2 →
      (nf (buildChain n rnd b0))^[k1] s ≠ (nf (buildChain n rnd b0))^[k2] s) ∧
    (∀ t < n, ∃ k < n, (nf (buildChain n rnd b0))^[k] s = t) := by
  have hg := good_buildChain hn rnd b0
  refine ⟨(good_cycle hg).1 s hs, ?_, ?_⟩
  · intro k1 h1 k2 h2 hne heq
    exact hne (cycle_iterate_distinct (good_cycle hg) hs k1 h1 k2 h2 heq)
  · intro t ht
    exact cycle_reach (fun j hj => (good_bounded hg j hj).1) (good_cycle hg) hs ht

/-- Witness for C1 at `n = 3`. -/
theorem C1_chain_single_cycle_witness :
    2 ≤ 3 ∧ (0 : Nat) < 3 ∧
    ((nf (buildChain 3 (fun _ => 0) zeroBuf))^[3] 0 = 0 ∧
      (∀ k1 < 3, ∀ k2 < 3, k1 ≠ k2 →
        (nf (buildChain 3 (fun _ => 0) zeroBuf))^[k1] 0 ≠
          (nf (buildChain 3 (fun _ => 0) zeroBuf))^[k2] 0) ∧
      (∀ t < 3, ∃ k < 3, (nf (buildChain 3 (fun _ => 0) zeroBuf))^[k] 0 = t)) :=
  ⟨by decide, by decide,
    C1_chain_single_cycle (by decide) (fun _ => 0) zeroBuf (by decide)⟩

/-- C2: after the initial circular linking (`m = 0`) and after every single
one of the `n-1` shuffle swap steps (`m = 1 .. n-1`), the forward links
form exactly one cycle covering all `n` entries and the backward links are
the exact inverse of the forward links. -/
theorem C2_invariant_every_step {n : Nat} (hn : 2 ≤ n) (rnd : Nat → Nat) (b0 : Buf)
    {m : Nat} (hm : m ≤ n - 1) :
    good n (shufflePrefix n rnd (initLinks n b0) m) :=
  good_shufflePrefix hn rnd (good_initLinks hn b0) m hm

/-- Witness for C2 at `n = 3` after both swap steps. -/
theorem C2_invariant_every_step_witness :
    2 ≤ 3 ∧ 2 ≤ 3 - 1 ∧
    good 3 (shufflePrefix 3 (fun _ => 0) (initLinks 3 zeroBuf) 2) :=
  ⟨by decide, by decide,
    C2_invariant_every_step (by decide) (fun _ => 0) zeroBuf (by decide)⟩

/-- C3 counterexample: the claim also promises a zero-second summary, but
the reported time is the difference of the two clock samples, which the
code does not force to zero — with samples 0 and 5000 the zero-iteration
run reports 5 seconds. -/
theorem C3_zero_not_zero_seconds :
    runModel 64 (some ['s']) (some ['0']) true 0 5000
      = .done { kbytes := 0, gib := false, ms := 5000 }
    ∧ (5000 : Nat) ≠ 0 := by
  exact ⟨by decide, by decide⟩

/-- C3 (amended): an explicit iteration count of `"0"` parses to 0
iterations, the loop guard is false at the very first check so the
traversal body never runs, zero passes touch no byte of the buffer, and
the program exits normally with a zero-volume summary whose elapsed-time
field is the clock-sample difference (zero exactly when no clock time
elapses). -/
theorem C3_zero_iterations {w : Nat} (hw : w = 32 ∨ w = 64) {a1 : List Char}
    (h1 : a1 ≠ helpLong) (h2 : a1 ≠ helpShort) (t0 t1 : Nat) :
    parseIters w ['0'] = some 0
    ∧ runModel w (some a1) (some ['0']) true t0 t1
        = .done { kbytes := 0, gib := false, ms := t1 - t0 }
    ∧ loopGuard 3 0 0 = false
    ∧ (∀ b : Buf, seqRun seqLines 0 b = b)
    ∧ exitCode (runModel w (some a1) (some ['0']) true t0 t1) = some 0 := by
  have hnh : ¬ (a1 = helpLong ∨ a1 = helpShort) := fun h => h.elim h1 h2
  have hparse : parseIters w ['0'] = some 0 := by
    rcases hw with rfl | rfl <;> decide
  have hrun : runModel w (some a1) (some ['0']) true t0 t1
      = .done { kbytes := 0, gib := false, ms := t1 - t0 } := by
    rw [runModel_both_args w a1 ['0'] true t0 t1 hnh, hparse]
    norm_num
  refine ⟨hparse, hrun, by decide, fun b => rfl, ?_⟩
  rw [hrun]
  rfl

/-- Witness for C3 with coinciding clock samples. -/
theorem C3_zero_iterations_witness :
    ((64 : Nat) = 32 ∨ (64 : Nat) = 64) ∧ (['s'] ≠ helpLong) ∧ (['s'] ≠ helpShort) ∧
    (parseIters 64 ['0'] = some 0
    ∧ runModel 64 (some ['s']) (some ['0']) true 7 7
        = .done { kbytes := 0, gib := false, ms := 7 - 7 }
    ∧ loopGuard 3 0 0 = false
    ∧ (∀ b : Buf, seqRun seqLines 0 b = b)
    ∧ exitCode (runModel 64 (some ['s']) (some ['0']) true 7 7) = some 0) :=
  ⟨by decide, by decide, by decide,
    C3_zero_iterations (Or.inr rfl) (by decide) (by decide) 7 7⟩

/-- C4 counterexample: an explicit iteration count of 0 terminates at once
with a zero-volume summary, while an absent count runs forever — 0 does
not behave like an absent count. -/
theorem C4_zero_differs_from_absent :
    runModel 64 (some ['s']) (some ['0']) true 0 0
      = .done { kbytes := 0, gib := false, ms := 0 }
    ∧ runModel 64 (some ['s']) none true 0 0 = .forever
    ∧ runModel 64 (some ['s']) (some ['0']) true 0 0
        ≠ runModel 64 (some ['s']) none true 0 0
    ∧ loopGuard 3 0 0 = false
    ∧ loopGuard 2 0 0 = true := by
  decide

/-- C4 (amended): an absent iteration count (argc ≤ 2) makes the loop
guard true forever, so the traversal loop runs unboundedly; an explicitly
supplied count of 0 instead fails the guard at the first check and the
program terminates immediately with a zero-volume summary. -/
theorem C4_absent_unbounded {w : Nat} (hw : w = 32 ∨ w = 64) {a1 : List Char}
    (h1 : a1 ≠ helpLong) (h2 : a1 ≠ helpShort) (t0 t1 : Nat) :
    runModel w none none true t0 t1 = .forever
    ∧ runModel w (some a1) none true t0 t1 = .forever
    ∧ (∀ argc ≤ 2, ∀ its i, loopGuard argc its i = true)
    ∧ runModel w (some a1) (some ['0']) true t0 t1
        = .done { kbytes := 0, gib := false, ms := t1 - t0 }
    ∧ loopGuard 3 0 0 = false := by
  have hnh : ¬ (a1 = helpLong ∨ a1 = helpShort) := fun h => h.elim h1 h2
  refine ⟨rfl, ?_, ?_, (C3_zero_iterations hw h1 h2 t0 t1).2.1, by decide⟩
  · rw [runModel_one_arg w a1 true t0 t1 hnh]
    simp
  · intro argc hc its i
    simp [loopGuard]
    omega

/-- Witness for C4 (amended). -/
theorem C4_absent_unbounded_witness :
    ((64 : Nat) = 32 ∨ (64 : Nat) = 64) ∧ (['s'] ≠ helpLong) ∧ (['s'] ≠ helpShort) ∧
    (runModel 64 none none true 0 9 = .forever
    ∧ runModel 64 (some ['s']) none true 0 9 = .forever
    ∧ (∀ argc ≤ 2, ∀ its i, loopGuard argc its i = true)
    ∧ runModel 64 (some ['s']) (some ['0']) true 0 9
        = .done { kbytes := 0, gib := false, ms := 9 - 0 }
    ∧ loopGuard 3 0 0 = false) :=
  ⟨by decide, by decide, by decide,
    C4_absent_unbounded (Or.inr rfl) (by decide) (by decide) 0 9⟩

/-- C5 counterexample: the byte incremented in each visited line is the
first byte of the entry's `data` field, which sits after the two link
pointers — at offset 8 (32-bit pointers) or 16 (64-bit pointers) within
the line, never at the line's first byte. -/
theorem C5_not_first_byte :
    seqTargetByte 4 0 = 8 ∧ seqTargetByte 8 0 = 16
    ∧ seqTargetByte 4 0 ≠ 0 ∧ seqTargetByte 8 0 ≠ 0
    ∧ entry_data_offset 4 ≠ 0 := by
  decide

/-- C5 (amended): each sequential pass sweeps the buffer in ascending
order in fixed strides of one cache-line size, incrementing the `data`
word of the entry in each visited line (at byte offset two pointer-sizes
into the line — not the line's first byte); after two passes every such
target word has been incremented by exactly 2 and no other entry changed. -/
theorem C5_two_pass_increments (count : Nat) (b : Buf) :
    (∀ j < count, seqRun count 2 b j = { b j with data := (b j).data + 2 })
    ∧ (∀ j, count ≤ j → seqRun count 2 b j = b j)
    ∧ (∀ ps i, seqTargetByte ps i = i * LINE_SIZE + entry_data_offset ps)
    ∧ (∀ sz ls, List.Chain' (fun a b2 => b2 = a + ls) (seqPassOffsets sz ls))
    ∧ seqLines = 786432 := by
  refine ⟨?_, ?_, ?_, ?_, ?_⟩
  · intro j hj
    rw [seqRun_at, if_pos hj]
    norm_num
  · intro j hj
    rw [seqRun_at, if_neg (by omega)]
  · intro ps i
    rfl
  · intro sz ls
    exact seqPassOffsets_stride sz ls
  · show (12 * 1024 * 1024 * 4) / 64 = 786432
    norm_num

/-- C6 counterexample: the negative in-range string `"-5"` is not rejected.
`strtol` returns -5, the assignment to `unsigned long` wraps it to
`2^64 - 5`, which matches neither sentinel, so the program accepts it,
allocates, and (eventually) exits 0 — not 1, with no diagnostic. -/
theorem C6_negative_accepted :
    parseIters 64 ['-', '5'] = some 18446744073709551611
    ∧ runModel 64 (some ['s']) (some ['-', '5']) true 0 0 ≠ .parseError
    ∧ exitCode (runModel 64 (some ['s']) (some ['-', '5']) true 0 0) ≠ some 1
    ∧ allocAttempted (runModel 64 (some ['s']) (some ['-', '5']) true 0 0) = true := by
  refine ⟨by decide, by decide, by decide, by decide⟩

/-- C6 (amended): an iteration string is rejected exactly when the
wrapped `strtol` result equals `(unsigned long)LONG_MIN` or
`(unsigned long)LONG_MAX` or a non-empty tail remains (this covers
non-numeric strings, trailing garbage and out-of-range magnitudes, but
not in-range negatives, which wrap to huge counts); on rejection the
process exits with status 1 before any allocation and writes a
diagnostic to standard error. -/
theorem C6_invalid_rejected {w : Nat} {a1 a2 : List Char}
    (h1 : a1 ≠ helpLong) (h2 : a1 ≠ helpShort)
    (hp : parseIters w a2 = none) (mOk : Bool) (t0 t1 : Nat) :
    runModel w (some a1) (some a2) mOk t0 t1 = .parseError
    ∧ exitCode (runModel w (some a1) (some a2) mOk t0 t1) = some 1
    ∧ allocAttempted (runModel w (some a1) (some a2) mOk t0 t1) = false
    ∧ stderrDiag (runModel w (some a1) (some a2) mOk t0 t1) = true
    ∧ parseIters 32 ['a', 'b', 'c'] = none
    ∧ parseIters 64 ['a', 'b', 'c'] = none
    ∧ parseIters 64 ['1', '2', 'x'] = none
    ∧ parseIters 64
        ['9', '9', '9', '9', '9', '9', '9', '9', '9', '9',
         '9', '9', '9', '9', '9', '9', '9', '9', '9', '9'] = none := by
  have hnh : ¬ (a1 = helpLong ∨ a1 = helpShort) := fun h => h.elim h1 h2
  have hrun : runModel w (some a1) (some a2) mOk t0 t1 = .parseError := by
    rw [runModel_both_args w a1 a2 mOk t0 t1 hnh, hp]
  refine ⟨hrun, ?_, ?_, ?_, by decide, by decide, by decide, by decide⟩
  · rw [hrun]; rfl
  · rw [hrun]; rfl
  · rw [hrun]; rfl

/-- Witness for C6 (amended) on the non-numeric string of the spec
scenario. -/
theorem C6_invalid_rejected_witness :
    (['s'] ≠ helpLong) ∧ (['s'] ≠ helpShort) ∧
    (parseIters 64 ['a', 'b', 'c'] = none) ∧
    (runModel 64 (some ['s']) (some ['a', 'b', 'c']) true 0 0 = .parseError
    ∧ exitCode (runModel 64 (some ['s']) (some ['a', 'b', 'c']) true 0 0) = some 1
    ∧ allocAttempted (runModel 64 (some ['s']) (some ['a', 'b', 'c']) true 0 0) = false
    ∧ stderrDiag (runModel 64 (some ['s']) (some ['a', 'b', 'c']) true 0 0) = true
    ∧ parseIters 32 ['a', 'b', 'c'] = none
    ∧ parseIters 64 ['a', 'b', 'c'] = none
    ∧ parseIters 64 ['1', '2', 'x'] = none
    ∧ parseIters 64
        ['9', '9', '9', '9', '9', '9', '9', '9', '9', '9',
         '9', '9', '9', '9', '9', '9', '9', '9', '9', '9'] = none) :=
  ⟨by decide, by decide, by decide,
    C6_invalid_rejected (by decide) (by decide) (by decide) true 0 0⟩

/-- C7: one sequential pass over a region of `N` bytes with line size `L`
dividing `N` visits exactly `N / L` line-aligned offsets, pairwise
distinct, in strictly ascending order, all inside the region. -/
theorem C7_offsets_per_pass {N L : Nat} (hL : 0 < L) (hdvd : L ∣ N) :
    (seqPassOffsets N L).length = N / L
    ∧ (seqPassOffsets N L).Nodup
    ∧ List.Pairwise (· < ·) (seqPassOffsets N L)
    ∧ ∀ o ∈ seqPassOffsets N L, L ∣ o ∧ o < N :=
  ⟨seqPassOffsets_length N L, seqPassOffsets_nodup N L hL,
    seqPassOffsets_sorted N L hL, seqPassOffsets_mem N L hL hdvd⟩

/-- Witness for C7 at `N = 256`, `L = 64`. -/
theorem C7_offsets_per_pass_witness :
    0 < 64 ∧ (64 : Nat) ∣ 256 ∧
    ((seqPassOffsets 256 64).length = 256 / 64
    ∧ (seqPassOffsets 256 64).Nodup
    ∧ List.Pairwise (· < ·) (seqPassOffsets 256 64)
    ∧ ∀ o ∈ seqPassOffsets 256 64, (64 : Nat) ∣ o ∧ o < 256) :=
  ⟨by decide, by decide, C7_offsets_per_pass (by decide) (by decide)⟩

/-- C8: on a single forward cycle over all `n` entries, one pass of the
do-while visits the `n` iterates of the forward map from the start in
order (the cursor is advanced before the loop condition is checked),
increments every live entry's payload exactly once, leaves everything else
unchanged, and leaves the links intact — so the next pass visits the very
same order, fixed at shuffle time. -/
theorem C8_random_pass {n : Nat} {b : Buf} (hb : ∀ j < n, nf b j < n)
    (hcy : singleCycle n (nf b)) {s : Nat} (hs : s < n)
    {fuel : Nat} (hf : n ≤ fuel) :
    doWhileVisits s fuel b s = some ((List.range n).map (fun k => (nf b)^[k] s))
    ∧ ∃ bf, doWhilePass s fuel b s = some bf
        ∧ (∀ j < n, bf j = { b j with data := (b j).data + 1 })
        ∧ (∀ j, n ≤ j → bf j = b j)
        ∧ doWhileVisits s fuel bf s = doWhileVisits s fuel b s := by
  have hn1 : 1 ≤ n := by omega
  have hv : doWhileVisits s fuel b s
      = some ((List.range n).map (fun k => (nf b)^[k] s)) := by
    have := doWhileVisits_spec hcy hs n hn1 le_rfl fuel hf
    rw [Nat.sub_self] at this
    simpa using this
  have hp : doWhilePass s fuel b s
      = some (((List.range n).map (fun k => (nf b)^[k] s)).foldl incr b) := by
    have := doWhilePass_spec hcy hs n hn1 le_rfl fuel hf b (fun j => rfl)
    rw [Nat.sub_self] at this
    simpa using this
  refine ⟨hv, _, hp, ?_, ?_, ?_⟩
  · intro j hj
    rw [foldl_incr_at _ _ _ (iterates_nodup hcy hs),
      if_pos ((iterates_mem hb hcy hs j).mpr hj)]
  · intro j hj
    rw [foldl_incr_at _ _ _ (iterates_nodup hcy hs),
      if_neg (fun hc => absurd ((iterates_mem hb hcy hs j).mp hc) (by omega))]
  · exact doWhileVisits_congr s (fun j => foldl_incr_nf _ _ _) fuel s

/-- A concrete 3-entry cyclic buffer for the C8 witness. -/
def cyc3 : Buf := fun j =>
  if j = 0 then { prev := 2, next := 1, data := 0 }
  else if j = 1 then { prev := 0, next := 2, data := 0 }
  else if j = 2 then { prev := 1, next := 0, data := 0 }
  else { prev := 0, next := 0, data := 0 }

/-- Witness for C8 on a concrete 3-cycle with fuel 5. -/
theorem C8_random_pass_witness :
    (∀ j < 3, nf cyc3 j < 3) ∧ singleCycle 3 (nf cyc3) ∧ (0 : Nat) < 3 ∧ 3 ≤ 5 ∧
    (doWhileVisits 0 5 cyc3 0 = some ((List.range 3).map (fun k => (nf cyc3)^[k] 0))
    ∧ ∃ bf, doWhilePass 0 5 cyc3 0 = some bf
        ∧ (∀ j < 3, bf j = { cyc3 j with data := (cyc3 j).data + 1 })
        ∧ (∀ j, 3 ≤ j → bf j = cyc3 j)
        ∧ doWhileVisits 0 5 bf 0 = doWhileVisits 0 5 cyc3 0) :=
  ⟨by decide, by decide, by decide, by decide,
    C8_random_pass (by decide) (by decide) (by decide) (by decide)⟩

/-- C9: when `malloc` fails the program writes a diagnostic and exits
with status 2 before reaching the traversal section, whatever the
arguments were. -/
theorem C9_alloc_failure {w : Nat} {a1 a2 : List Char}
    (h1 : a1 ≠ helpLong) (h2 : a1 ≠ helpShort) {its : Nat}
    (hp : parseIters w a2 = some its) (t0 t1 : Nat) :
    runModel w (some a1) (some a2) false t0 t1 = .allocError
    ∧ runModel w (some a1) none false t0 t1 = .allocError
    ∧ runModel w none none false t0 t1 = .allocError
    ∧ exitCode (runModel w (some a1) (some a2) false t0 t1) = some 2
    ∧ stderrDiag (runModel w (some a1) (some a2) false t0 t1) = true
    ∧ traversalRan (runModel w (some a1) (some a2) false t0 t1) = false := by
  have hnh : ¬ (a1 = helpLong ∨ a1 = helpShort) := fun h => h.elim h1 h2
  have hr : runModel w (some a1) (some a2) false t0 t1 = .allocError := by
    rw [runModel_both_args w a1 a2 false t0 t1 hnh, hp]
    rfl
  have hr2 : runModel w (some a1) none false t0 t1 = .allocError := by
    rw [runModel_one_arg w a1 false t0 t1 hnh]
    simp
  refine ⟨hr, hr2, rfl, ?_, ?_, ?_⟩
  · rw [hr]; rfl
  · rw [hr]; rfl
  · rw [hr]; rfl

/-- Witness for C9. -/
theorem C9_alloc_failure_witness :
    (['s'] ≠ helpLong) ∧ (['s'] ≠ helpShort) ∧ (parseIters 64 ['2'] = some 2) ∧
    (runModel 64 (some ['s']) (some ['2']) false 0 0 = .allocError
    ∧ runModel 64 (some ['s']) none false 0 0 = .allocError
    ∧ runModel 64 none none false 0 0 = .allocError
    ∧ exitCode (runModel 64 (some ['s']) (some ['2']) false 0 0) = some 2
    ∧ stderrDiag (runModel 64 (some ['s']) (some ['2']) false 0 0) = true
    ∧ traversalRan (runModel 64 (some ['s']) (some ['2']) false 0 0) = false) :=
  ⟨by decide, by decide, by decide,
    @C9_alloc_failure 64 ['s'] ['2'] (by decide) (by decide) 2 (by decide) 0 0⟩

/-- C10: the PRNG is never seeded, so its call sequence is a fixed
function; two runs with the same entry count draw the identical sequence
of shuffle choices and hence build the identical chain links, whatever
junk the two `malloc` calls returned. -/
theorem C10_reproducible {n1 n2 : Nat} (hn : 2 ≤ n1) (heq : n1 = n2)
    (b1 b2 : Buf) :
    programChoices n1 = programChoices n2
    ∧ ∀ j < n1, nf (programChain n1 b1) j = nf (programChain n2 b2) j
      ∧ pf (programChain n1 b1) j = pf (programChain n2 b2) j := by
  subst heq
  exact ⟨rfl, buildChain_links_deterministic hn (randStream defaultSeed) b1 b2⟩

/-- Witness for C10 at `n = 4` with two different junk buffers. -/
theorem C10_reproducible_witness :
    2 ≤ 4 ∧ (4 : Nat) = 4 ∧
    (programChoices 4 = programChoices 4
    ∧ ∀ j < 4,
        nf (programChain 4 zeroBuf) j
          = nf (programChain 4 (fun _ => { prev := 5, next := 5, data := 5 })) j
        ∧ pf (programChain 4 zeroBuf) j
          = pf (programChain 4 (fun _ => { prev := 5, next := 5, data := 5 })) j) :=
  ⟨by decide, rfl,
    C10_reproducible (by decide) rfl zeroBuf (fun _ => { prev := 5, next := 5, data := 5 })⟩

end Thrasher
